import Mathlib

/-!
Verification of the dynamic-configuration schema compiler and validation
engine (backend/app/services/model_service.py, config_service.py,
backend/app/repositories/schema_repository.py).

The compiler (ModelService._parse_type_definition and
ModelService._create_model_from_schema) is embedded directly from the
source: a raw field-spec tree is compiled to a type-descriptor tree.
The runtime validation engine of the compiled models is provided by the
pydantic library, which is an external dependency whose code is not part
of this repository; its semantics are therefore modelled from the spec
(section 4.3), as noted on each such definition.

Python floats are modelled as rationals; Python dicts are modelled as
association lists looked up by first occurrence (an actual dict cannot
contain a duplicate key); regular-expression matching is abstracted as an
arbitrary Boolean matcher on (pattern, string) pairs.
-/

/-- Decidable equality of fallible results, used to evaluate the compiler
and validator on concrete inputs. -/
instance {e a : Type} [DecidableEq e] [DecidableEq a] : DecidableEq (Except e a) := fun x y =>
  match x, y with
  | .ok v, .ok w => if h : v = w then .isTrue (by rw [h]) else .isFalse (by simp [h])
  | .error v, .error w => if h : v = w then .isTrue (by rw [h]) else .isFalse (by simp [h])
  | .ok _, .error _ => .isFalse (by simp)
  | .error _, .ok _ => .isFalse (by simp)

namespace DynConfig

mutual
/-- An untyped runtime value, as would result from parsing a JSON or YAML
document: null, booleans, integers, floats (modelled as rationals),
strings, sequences and mappings. -/
inductive Value where
  | null
  | bool (b : Bool)
  | int (n : Int)
  | float (q : ℚ)
  | str (s : String)
  | list (xs : VList)
  | obj (kvs : VObj)
deriving DecidableEq

inductive VList where
  | nil
  | cons (v : Value) (tl : VList)
deriving DecidableEq

inductive VObj where
  | nil
  | cons (k : String) (v : Value) (tl : VObj)
deriving DecidableEq
end

def Value.isNull : Value → Bool
  | .null => true
  | _ => false

def VList.lengthV : VList → Nat
  | .nil => 0
  | .cons _ tl => 1 + tl.lengthV

def VList.containsV : VList → Value → Bool
  | .nil, _ => false
  | .cons h tl, v => if h = v then true else tl.containsV v

def VList.toList : VList → List Value
  | .nil => []
  | .cons v tl => v :: tl.toList

/-- First-match lookup; mirrors a Python dict access (dict keys are unique,
so first-match agrees with dict semantics on any value that models a dict). -/
def VObj.lookupV : VObj → String → Option Value
  | .nil, _ => none
  | .cons k v tl, key => if k = key then some v else tl.lookupV key

def VObj.keys : VObj → List String
  | .nil => []
  | .cons k _ tl => k :: tl.keys

def VObj.toList : VObj → List (String × Value)
  | .nil => []
  | .cons k v tl => (k, v) :: tl.toList

/-- The constraint bag of a field spec: the optional entries of the raw
schema's validation mapping (model_service.py reads the keys pattern, ge,
le, max_length, choices). A missing validation mapping is the bag with
every entry absent, matching props.get with an empty-dict default. -/
structure ValidationBag where
  pattern : Option String
  ge : Option ℚ
  le : Option ℚ
  max_length : Option Nat
  choices : Option VList
deriving DecidableEq

/-- The empty validation bag (no constraint declared). -/
def noValidation : ValidationBag := ⟨none, none, none, none, none⟩

mutual
/-- A raw field spec: one node of the raw schema tree handed to the
compiler. Components mirror the keys read by model_service.py:
a union list (mutually exclusive with a plain type tag), the optional
type tag (props.get with no default: a missing tag is distinct from an
explicit tag), the required flag (props.get with default False), the
optional explicit default value, the validation bag, and the nested
model.fields mapping (absent when either the model key or its fields key
is missing, in which case the Python subscript access fails). -/
inductive FieldSpec where
  | mk (union : UnionOpt) (type? : Option String) (required : Bool)
       (default : Option Value) (validation : ValidationBag) (model : ModelOpt)
deriving DecidableEq

inductive UnionOpt where
  | none
  | some (alts : SpecAlts)
deriving DecidableEq

inductive SpecAlts where
  | nil
  | cons (hd : FieldSpec) (tl : SpecAlts)
deriving DecidableEq

inductive ModelOpt where
  | none
  | some (fields : SpecFields)
deriving DecidableEq

inductive SpecFields where
  | nil
  | cons (name : String) (spec : FieldSpec) (tl : SpecFields)
deriving DecidableEq
end

def FieldSpec.union : FieldSpec → UnionOpt
  | .mk u _ _ _ _ _ => u

def FieldSpec.type? : FieldSpec → Option String
  | .mk _ t _ _ _ _ => t

def FieldSpec.required : FieldSpec → Bool
  | .mk _ _ r _ _ _ => r

def FieldSpec.default : FieldSpec → Option Value
  | .mk _ _ _ d _ _ => d

def FieldSpec.validation : FieldSpec → ValidationBag
  | .mk _ _ _ _ v _ => v

def FieldSpec.model : FieldSpec → ModelOpt
  | .mk _ _ _ _ _ m => m

def SpecFields.names : SpecFields → List String
  | .nil => []
  | .cons n _ tl => n :: tl.names

def SpecFields.toList : SpecFields → List (String × FieldSpec)
  | .nil => []
  | .cons n s tl => (n, s) :: tl.toList

def SpecAlts.toList : SpecAlts → List FieldSpec
  | .nil => []
  | .cons a tl => a :: tl.toList

/-- Scalar kinds: the four entries of TYPE_MAPPING in model_service.py,
plus the catch-all Any used for an unknown type tag. -/
inductive SKind where
  | str | int | bool | float | any
deriving DecidableEq

/-- TYPE_MAPPING.get(field_type, Any) of model_service.py. -/
def TYPE_MAPPING : String → SKind
  | "str" => .str
  | "int" => .int
  | "bool" => .bool
  | "float" => .float
  | _ => .any

/-- The per-field keyword constraints attached via pydantic Field(...) in
_create_model_from_schema (lines 72-86): each is attached only under the
type gate checked there. -/
structure FieldConstraints where
  pattern : Option String
  ge : Option ℚ
  le : Option ℚ
  max_length : Option Nat
deriving DecidableEq

/-- No keyword constraint attached. -/
def noConstraints : FieldConstraints := ⟨none, none, none, none⟩

mutual
/-- A compiled type descriptor: the runtime representation of the pydantic
type produced by the compiler. object fields carry, in declaration order,
the field name, the (possibly Optional-wrapped) compiled type, the
effective default (Lean none models the pydantic Ellipsis sentinel: the
field must be supplied) and the attached keyword constraints. -/
inductive Desc where
  | scalar (kind : SKind)
  | choice (allowed : VList)
  | opt (inner : Desc)
  | object (fields : Fields)
  | listOfObject (item : Desc)
  | listOfString (pattern : Option String) (minItems : Nat)
  | union (alts : Alts)
deriving DecidableEq

inductive Fields where
  | nil
  | cons (name : String) (typ : Desc) (dflt : Option Value) (cstr : FieldConstraints) (tl : Fields)
deriving DecidableEq

inductive Alts where
  | nil
  | cons (hd : Desc) (tl : Alts)
deriving DecidableEq
end

def Fields.names : Fields → List String
  | .nil => []
  | .cons n _ _ _ tl => n :: tl.names

def Alts.toList : Alts → List Desc
  | .nil => []
  | .cons a tl => a :: tl.toList

/-- Compilation failure: the raw schema document is structurally
malformed. missingModelFields models the failing subscript access
props[model][fields] on a model / list[model] field (lines 43 and 47 of
model_service.py); emptyUnion and emptyChoices model the failure of the
Python constructions Union[*[]] and Literal[*[]] on an empty alternative
or choice list. -/
inductive SchemaError where
  | missingModelFields (modelName fieldName : String)
  | emptyUnion
  | emptyChoices
deriving DecidableEq

/-- The helper constructions used by _create_model_from_schema, lines
66-70: the Optional wrapper for a non-required field and the effective
default (the explicit default if given, else the Ellipsis sentinel for a
required field and None for an optional one). -/
def fieldTypeHint (props : FieldSpec) (t : Desc) : Desc :=
  if props.required then t else .opt t

def fieldDefault (props : FieldSpec) : Option Value :=
  match props.default with
  | some v => some v
  | none => if props.required then none else some Value.null

/-- The field_args constraint gating of _create_model_from_schema, lines
72-84: pattern and max_length are attached only when the declared type is
exactly str, and ge / le only when it is int or float (note that the gate
reads the type key with no default, so a field with no type tag gets no
keyword constraint even though its parsed type falls back to str). -/
def fieldArgs (props : FieldSpec) : FieldConstraints :=
  ⟨if props.type? = some "str" then props.validation.pattern else none,
   if props.type? = some "int" ∨ props.type? = some "float" then props.validation.ge else none,
   if props.type? = some "int" ∨ props.type? = some "float" then props.validation.le else none,
   if props.type? = some "str" then props.validation.max_length else none⟩

mutual
/-- The schema compiler: ModelService._parse_type_definition and
ModelService._create_model_from_schema, embedded from the source. A
union is compiled alternative by alternative in declaration order (a
one-element union collapses to its single alternative, as Union[X] is X
in Python); choices take precedence over the declared type; model and
list[model] compile their nested fields recursively under a derived
scope name; list[str] becomes a constrained or unconstrained string
list; any other tag maps through TYPE_MAPPING. -/
def parse_type_definition (model_name field_name : String) (props : FieldSpec) :
    Except SchemaError Desc :=
  match props with
  | .mk (.some alts) _ _ _ _ _ => do
      let ds ← parseAlts model_name field_name alts
      match ds with
      | .nil => .error .emptyUnion
      | .cons d .nil => .ok d
      | _ => .ok (.union ds)
  | .mk .none type? _ _ validation model =>
      let field_type := type?.getD "str"
      match validation.choices with
      | some cs =>
          match cs with
          | .nil => .error .emptyChoices
          | _ => .ok (.choice cs)
      | none =>
          if field_type = "model" then
            match model with
            | .none => .error (.missingModelFields model_name field_name)
            | .some mf => do
                let fs ← compileFields (model_name ++ "_" ++ field_name) mf
                .ok (.object fs)
          else if field_type = "list[model]" then
            match model with
            | .none => .error (.missingModelFields model_name field_name)
            | .some mf => do
                let fs ← compileFields (model_name ++ "_" ++ field_name ++ "_item") mf
                .ok (.listOfObject (.object fs))
          else if field_type = "list[str]" then
            match validation.pattern with
            | some pat => .ok (.listOfString (some pat) 1)
            | none => .ok (.listOfString none 0)
          else
            .ok (.scalar (TYPE_MAPPING field_type))

def parseAlts (model_name field_name : String) (alts : SpecAlts) :
    Except SchemaError Alts :=
  match alts with
  | .nil => .ok .nil
  | .cons a tl => do
      let d ← parse_type_definition model_name field_name a
      let ds ← parseAlts model_name field_name tl
      .ok (.cons d ds)

def compileFields (model_name : String) (schema_fields : SpecFields) :
    Except SchemaError Fields :=
  match schema_fields with
  | .nil => .ok .nil
  | .cons field_name props tl => do
      let t ← parse_type_definition model_name field_name props
      let rest ← compileFields model_name tl
      .ok (.cons field_name (fieldTypeHint props t) (fieldDefault props) (fieldArgs props) rest)
end

/-- The top-level compiler entry point, _create_model_from_schema: compile
each field of a raw field mapping and wrap the result as an object
descriptor. -/
def create_model_from_schema (model_name : String) (schema_fields : SpecFields) :
    Except SchemaError Desc := do
  let fs ← compileFields model_name schema_fields
  .ok (.object fs)

/-- The compilation of one field entry: the body of the loop in
_create_model_from_schema, lines 61-86, producing the type hint, the
effective default and the gated keyword constraints. -/
def compileField (model_name field_name : String) (props : FieldSpec) :
    Except SchemaError (Desc × Option Value × FieldConstraints) := do
  let t ← parse_type_definition model_name field_name props
  .ok (fieldTypeHint props t, fieldDefault props, fieldArgs props)

/-- A violation's reason tag, from spec section 4.3. -/
inductive Reason where
  | missing_required
  | type_mismatch
  | pattern_mismatch
  | out_of_range
  | too_long
  | too_short
  | not_in_choices
  | union_exhausted
deriving DecidableEq

/-- One step of a field path: an object field name or a list index. -/
inductive PathItem where
  | name (s : String)
  | idx (i : Nat)
deriving DecidableEq

/-- One validation violation: a field path from the object root and a
reason tag. -/
structure Violation where
  path : List PathItem
  reason : Reason
deriving DecidableEq

/-- An abstract regular-expression matcher: matcher pattern s decides
whether string s matches pattern. The actual engine (Python re /
pydantic-core) is external to the repository, so every result below is
proved for an arbitrary matcher. -/
abbrev Matcher := String → String → Bool

/-- Modelled from the spec: the scalar coercion rules of the validation
engine (pydantic, external to the repository), spec section 4.3: a value
must be convertible to the declared kind; integers accept whole-number
floats, floats accept integers, strings are not cast from numbers, an
unknown kind (Any) accepts anything unchanged. Returns the coerced value
or none on a type mismatch. -/
def coerceScalar (kind : SKind) (v : Value) : Option Value :=
  match kind, v with
  | .str, .str s => some (.str s)
  | .int, .int n => some (.int n)
  | .int, .float q => if q.den = 1 then some (.int q.num) else none
  | .float, .float q => some (.float q)
  | .float, .int n => some (.float n)
  | .bool, .bool b => some (.bool b)
  | .any, w => some w
  | _, _ => none

/-- The numeric view of a value, used by the range constraints. -/
def toRat : Value → Option ℚ
  | .int n => some n
  | .float q => some q
  | _ => none

/-- Satisfaction of an attached pattern constraint: trivially satisfied
when no pattern is attached or the value is not a string. -/
def patternOk (m : Matcher) (copt : Option String) (v : Value) : Bool :=
  match copt, v with
  | some pat, .str s => m pat s
  | _, _ => true

/-- Satisfaction of an attached max_length constraint. -/
def maxLenOk (copt : Option Nat) (v : Value) : Bool :=
  match copt, v with
  | some len, .str s => decide (s.length ≤ len)
  | _, _ => true

/-- Satisfaction of an attached ge lower-bound constraint. -/
def geOk (copt : Option ℚ) (v : Value) : Bool :=
  match copt, toRat v with
  | some bound, some x => decide (bound ≤ x)
  | _, _ => true

/-- Satisfaction of an attached le upper-bound constraint. -/
def leOk (copt : Option ℚ) (v : Value) : Bool :=
  match copt, toRat v with
  | some bound, some x => decide (x ≤ bound)
  | _, _ => true

/-- A single recorded violation when a constraint check fails. -/
def constraintViol (p : List PathItem) (r : Reason) (ok : Bool) : List Violation :=
  if ok then [] else [⟨p, r⟩]

/-- Modelled from the spec: the per-field keyword-constraint checks of the
validation engine (pydantic, external to the repository), spec section
4.3: pattern, max_length, ge and le are each checked on the coerced
value, and every violated constraint is recorded, not just the first.
A constraint inapplicable to the value's kind imposes nothing. -/
def checkConstraints (m : Matcher) (c : FieldConstraints) (p : List PathItem) (v : Value) :
    List Violation :=
  constraintViol p .pattern_mismatch (patternOk m c.pattern v)
  ++ constraintViol p .too_long (maxLenOk c.max_length v)
  ++ constraintViol p .out_of_range (geOk c.ge v)
  ++ constraintViol p .out_of_range (leOk c.le v)

/-- Modelled from the spec: the check of one element of a constrained
string list: the element must be a string and, when a pattern is set,
must match it. -/
def strElemViol (m : Matcher) (pat : Option String) (i : Nat) (p : List PathItem)
    (x : Value) : List Violation :=
  match x with
  | .str s =>
    match pat with
    | some patt => if m patt s then [] else [⟨p ++ [.idx i], .pattern_mismatch⟩]
    | none => []
  | _ => [⟨p ++ [.idx i], .type_mismatch⟩]

/-- Modelled from the spec: element checks of a constrained string list
(spec section 4.3, ListOfString): each element must be a string and, when
a pattern is set, must match it; violations are indexed per element. -/
def checkStrList (m : Matcher) (pat : Option String) (i : Nat) (p : List PathItem) :
    VList → List Violation
  | .nil => []
  | .cons x tl => strElemViol m pat i p x ++ checkStrList m pat (i + 1) p tl

/-- Modelled from the spec: glue applying the keyword constraints to the
outcome of validating a field's value against its compiled type (spec
section 4.3); a null that passed an Optional type is not subjected to
the keyword constraints. -/
def entryCheck (m : Matcher) (cstr : FieldConstraints) (p : List PathItem)
    (r : Except (List Violation) Value) : Except (List Violation) Value :=
  match r with
  | .error es => .error es
  | .ok w =>
    match (if w.isNull then [] else checkConstraints m cstr p w) with
    | [] => .ok w
    | ces => .error ces

/-- Modelled from the spec: the element loop of list[model] validation
(spec section 4.3, ListOfObject): apply an element validator to each
element of the input sequence in order, aggregating element-indexed
violations and collecting the validated elements. -/
def elemsLoop (f : Nat → Value → Except (List Violation) Value) (i : Nat) (xs : VList) :
    List Violation × VList :=
  match xs with
  | .nil => ([], .nil)
  | .cons x tl =>
    let rest := elemsLoop f (i + 1) tl
    match f i x with
    | .ok w => (rest.1, .cons w rest.2)
    | .error es => (es ++ rest.1, rest.2)

mutual
/-- Modelled from the spec: the recursive validator / coercer of spec
section 4.3, the runtime behaviour of the compiled pydantic model (the
pydantic engine itself is an external dependency, absent from the
repository). Dispatch is by descriptor variant; failures are aggregated,
never halted early; object output contains only the fields present in
the input (the exclude-unset serialization contract of config_service);
union alternatives are tried in declaration order and the first
alternative validating without error determines the value. -/
def validateDesc (m : Matcher) (d : Desc) (p : List PathItem) (v : Value) :
    Except (List Violation) Value :=
  match d with
  | .scalar kind =>
    match coerceScalar kind v with
    | some w => .ok w
    | none => .error [⟨p, .type_mismatch⟩]
  | .choice allowed =>
    if allowed.containsV v then .ok v else .error [⟨p, .not_in_choices⟩]
  | .opt inner =>
    if v.isNull then .ok .null else validateDesc m inner p v
  | .object fields =>
    match v with
    | .obj kvs =>
      match validateFields m fields p kvs with
      | ([], outs) => .ok (.obj outs)
      | (es, _) => .error es
    | _ => .error [⟨p, .type_mismatch⟩]
  | .listOfObject item =>
    match v with
    | .list xs =>
      match elemsLoop (fun i x => validateDesc m item (p ++ [.idx i]) x) 0 xs with
      | ([], outs) => .ok (.list outs)
      | (es, _) => .error es
    | _ => .error [⟨p, .type_mismatch⟩]
  | .listOfString pat minItems =>
    match v with
    | .list xs =>
      match checkStrList m pat 0 p xs
            ++ (if xs.lengthV < minItems then [⟨p, .too_short⟩] else []) with
      | [] => .ok (.list xs)
      | es => .error es
    | _ => .error [⟨p, .type_mismatch⟩]
  | .union alts =>
    match alts with
    | .nil => .error [⟨p, .union_exhausted⟩]
    | .cons a rest =>
      match validateDesc m a p v with
      | .ok w => .ok w
      | .error es =>
        match tryAlts m rest p v with
        | some w => .ok w
        | none => .error (⟨p, .union_exhausted⟩ :: es)

/-- Modelled from the spec: validate the declared fields of an object
descriptor against an input mapping, aggregating all violations and
collecting the validated entries of the fields present in the input;
an absent field with the Ellipsis sentinel records missing_required, an
absent field with a usable default is omitted from the output entirely
(exclude-unset). Unknown input keys are ignored. -/
def validateFields (m : Matcher) (fields : Fields) (p : List PathItem) (kvs : VObj) :
    List Violation × VObj :=
  match fields with
  | .nil => ([], .nil)
  | .cons fname typ dflt cstr tl =>
    let rest := validateFields m tl p kvs
    match kvs.lookupV fname with
    | some fv =>
      match entryCheck m cstr (p ++ [.name fname]) (validateDesc m typ (p ++ [.name fname]) fv) with
      | .ok w => (rest.1, .cons fname w rest.2)
      | .error es => (es ++ rest.1, rest.2)
    | none =>
      match dflt with
      | none => (⟨p ++ [.name fname], .missing_required⟩ :: rest.1, rest.2)
      | some _ => rest

/-- Modelled from the spec: try the remaining union alternatives in
declaration order, returning the first successfully validated value. -/
def tryAlts (m : Matcher) (alts : Alts) (p : List PathItem) (v : Value) : Option Value :=
  match alts with
  | .nil => none
  | .cons a rest =>
    match validateDesc m a p v with
    | .ok w => some w
    | .error _ => tryAlts m rest p v
end

/-- Modelled from the spec: validation of one declared field's supplied
value: the compiled type first, then the gated keyword constraints on the
coerced result. -/
def validateEntry (m : Matcher) (typ : Desc) (cstr : FieldConstraints)
    (p : List PathItem) (v : Value) : Except (List Violation) Value :=
  entryCheck m cstr p (validateDesc m typ p v)

/-- The schema-not-found failure of SchemaRepository.get_schema_by_name. -/
inductive SchemaNotFoundError where
  | mk (model_name : String)
deriving DecidableEq

/-- A raw schema document: the parsed YAML mapping with its optional
root_key entry and its fields mapping. -/
structure RawSchema where
  root_key : Option String
  fields : SpecFields

/-- SchemaRepository.get_schema_by_name: look a schema document up by
name. The data_models directory is modelled as an association list from
names to parsed documents; the document type is an arbitrary type
parameter because the loader performs no validation whatsoever of the
document's internal structure and returns it exactly as parsed. -/
def get_schema_by_name {α : Type} (store : List (String × α)) (model_name : String) :
    Except SchemaNotFoundError α :=
  match store.lookup model_name with
  | some schema => .ok schema
  | none => .error (.mk model_name)

/-- A pipeline failure: either the loader's not-found failure or the
compiler's schema failure, kept apart exactly as the controller keeps
the two exception types apart. -/
inductive AppError where
  | notFound (e : SchemaNotFoundError)
  | schemaErr (e : SchemaError)
deriving DecidableEq

/-- ModelService.create_dynamic_model: load a schema by name and compile
its fields mapping. -/
def create_dynamic_model (store : List (String × RawSchema)) (model_name : String) :
    Except AppError Desc :=
  match get_schema_by_name store model_name with
  | .error e => .error (.notFound e)
  | .ok schema =>
    match create_model_from_schema model_name schema.fields with
    | .error e => .error (.schemaErr e)
    | .ok d => .ok d

/-- ConfigService.generate_config: load the schema to read its optional
root_key (defaulting to the model name) and wrap the validated document
under it. The validated document passed in stands for
data.model_dump(exclude_unset=True) — the validator above already omits
every unset optional field, which is exactly the exclude-unset dump —
and the final YAML text rendering is outside the core. -/
def generate_config (store : List (String × RawSchema)) (model_name : String)
    (data : Value) : Except SchemaNotFoundError Value := do
  let schema ← get_schema_by_name store model_name
  .ok (.obj (.cons (schema.root_key.getD model_name) data .nil))

/-- The violations of a fallible validation outcome (empty on success). -/
def errsOf : Except (List Violation) Value → List Violation
  | .error es => es
  | .ok _ => []

/-- Uniqueness of a key list, as holds for the key set of any Python dict. -/
def nodupKeys : List String → Bool
  | [] => true
  | k :: rest => (!rest.contains k) && nodupKeys rest

mutual
/-- A descriptor tree containing no union node. -/
def unionFree : Desc → Bool
  | .scalar _ => true
  | .choice _ => true
  | .opt inner => unionFree inner
  | .object fields => unionFreeFields fields
  | .listOfObject item => unionFree item
  | .listOfString _ _ => true
  | .union _ => false

def unionFreeFields : Fields → Bool
  | .nil => true
  | .cons _ typ _ _ tl => unionFree typ && unionFreeFields tl
end

mutual
/-- A descriptor tree in which every object node declares pairwise
distinct field names, as holds for every descriptor compiled from actual
schema documents (whose field mappings are Python dicts). -/
def dictDesc : Desc → Bool
  | .scalar _ => true
  | .choice _ => true
  | .opt inner => dictDesc inner
  | .object fields => nodupKeys fields.names && dictFields fields
  | .listOfObject item => dictDesc item
  | .listOfString _ _ => true
  | .union alts => dictAlts alts

def dictFields : Fields → Bool
  | .nil => true
  | .cons _ typ _ _ tl => dictDesc typ && dictFields tl

def dictAlts : Alts → Bool
  | .nil => true
  | .cons a tl => dictDesc a && dictAlts tl
end

mutual
/-- Structural well-formedness of a raw field spec, following the field
spec grammar of spec section 3: a union, when present, is a nonempty list
of well-formed alternatives; a choices list, when present, is nonempty;
a model or list[model] field carries its nested model.fields mapping,
itself well-formed. -/
def wellFormedSpec : FieldSpec → Bool
  | .mk (.some alts) _ _ _ _ _ =>
    (match alts with
     | .nil => false
     | _ => true) && wellFormedAlts alts
  | .mk .none type? _ _ validation model =>
    match validation.choices with
    | some cs =>
      (match cs with
       | .nil => false
       | _ => true)
    | none =>
      if type?.getD "str" = "model" ∨ type?.getD "str" = "list[model]" then
        match model with
        | .none => false
        | .some mf => wellFormedFields mf
      else true

def wellFormedAlts : SpecAlts → Bool
  | .nil => true
  | .cons a tl => wellFormedSpec a && wellFormedAlts tl

def wellFormedFields : SpecFields → Bool
  | .nil => true
  | .cons _ spec tl => wellFormedSpec spec && wellFormedFields tl
end

/-- Concatenation of alternative lists, used to speak about the position
of an alternative inside a union. -/
def altsApp : Alts → Alts → Alts
  | .nil, bs => bs
  | .cons a tl, bs => .cons a (altsApp tl bs)

/-- Concatenation of compiled field lists. -/
def fieldsApp : Fields → Fields → Fields
  | .nil, bs => bs
  | .cons n t df c tl, bs => .cons n t df c (fieldsApp tl bs)

/-- Concatenation of value sequences. -/
def vlistApp : VList → VList → VList
  | .nil, bs => bs
  | .cons v tl, bs => .cons v (vlistApp tl bs)

/-- The same raw field spec with the pattern entry of its validation bag
removed. -/
def erasePattern : FieldSpec → FieldSpec
  | .mk u t r d validation mo =>
    .mk u t r d ⟨none, validation.ge, validation.le, validation.max_length, validation.choices⟩ mo


theorem lookupV_cons_self (k : String) (v : Value) (tl : VObj) :
    (VObj.cons k v tl).lookupV k = some v := by
  simp [VObj.lookupV]

theorem lookupV_cons_ne (k key : String) (v : Value) (tl : VObj) (h : k ≠ key) :
    (VObj.cons k v tl).lookupV key = tl.lookupV key := by
  simp [VObj.lookupV, h]

theorem constraintViol_path (p : List PathItem) (r : Reason) (b : Bool) :
    ∀ viol ∈ constraintViol p r b, viol.path = p ∧ viol.reason = r := by
  cases b <;> simp [constraintViol]

theorem checkConstraints_path (m : Matcher) (c : FieldConstraints) (p : List PathItem)
    (v : Value) : ∀ viol ∈ checkConstraints m c p v, viol.path = p := by
  intro viol hm
  simp only [checkConstraints, List.mem_append] at hm
  rcases hm with ((h | h) | h) | h <;>
    exact (constraintViol_path _ _ _ viol h).1

theorem coerce_idem (k : SKind) (x w : Value) (h : coerceScalar k x = some w) :
    coerceScalar k w = some w := by
  cases k <;> cases x <;> simp [coerceScalar] at h ⊢ <;>
    first
      | (subst h; simp)
      | skip
  case int.float q =>
    rcases h with ⟨hden, hw⟩
    subst hw
    simp [coerceScalar]

theorem validateDesc_error_ne :
    ∀ (d : Desc) (m : Matcher) (p : List PathItem) (v : Value) (es : List Violation),
      validateDesc m d p v = .error es → es ≠ []
  | .scalar k, m, p, v, es => by
    intro h
    cases hc : coerceScalar k v <;> simp [validateDesc, hc] at h <;> simp [← h]
  | .choice allowed, m, p, v, es => by
    intro h
    by_cases hc : allowed.containsV v = true <;> simp [validateDesc, hc] at h <;> simp [← h]
  | .opt inner, m, p, v, es => by
    intro h
    cases hn : v.isNull <;> simp [validateDesc, hn] at h
    exact validateDesc_error_ne inner m p v es h
  | .object fields, m, p, v, es => by
    intro h
    cases v <;> simp [validateDesc] at h <;> try simp [← h]
    case obj kvs =>
      rcases hv : validateFields m fields p kvs with ⟨fst, snd⟩
      cases fst <;> simp [hv] at h
      simp [← h]
  | .listOfObject item, m, p, v, es => by
    intro h
    cases v <;> simp [validateDesc] at h <;> try simp [← h]
    case list xs =>
      rcases hv : elemsLoop (fun i x => validateDesc m item (p ++ [.idx i]) x) 0 xs with ⟨fst, snd⟩
      cases fst <;> simp [hv] at h
      simp [← h]
  | .listOfString pat minItems, m, p, v, es => by
    intro h
    cases v <;> simp [validateDesc] at h <;> try simp [← h]
    case list xs =>
      rcases hv : checkStrList m pat 0 p xs
          ++ (if xs.lengthV < minItems then [⟨p, .too_short⟩] else []) with _ | ⟨a, l⟩
      · simp [hv] at h
      · simp [hv] at h
        simp [← h]
  | .union alts, m, p, v, es => by
    intro h
    cases alts with
    | nil => simp [validateDesc] at h; simp [← h]
    | cons a tl =>
      cases ha : validateDesc m a p v <;> simp [validateDesc, ha] at h
      cases ht : tryAlts m tl p v <;> simp [ht] at h
      simp [← h]

theorem entryCheck_error_ne (m : Matcher) (c : FieldConstraints) (p : List PathItem)
    (d : Desc) (v : Value) (es : List Violation)
    (h : entryCheck m c p (validateDesc m d p v) = .error es) : es ≠ [] := by
  cases hr : validateDesc m d p v with
  | error es' =>
    simp [entryCheck, hr] at h
    exact h ▸ validateDesc_error_ne d m p v es' hr
  | ok w =>
    simp [entryCheck, hr] at h
    rcases hc : (if w.isNull then [] else checkConstraints m c p w) with _ | ⟨a, l⟩
    · simp [hc] at h
    · simp [hc] at h
      simp [← h]

theorem validateFields_congr :
    ∀ (fs : Fields) (m : Matcher) (p : List PathItem) (kvs₁ kvs₂ : VObj),
      (∀ g ∈ fs.names, kvs₁.lookupV g = kvs₂.lookupV g) →
      validateFields m fs p kvs₁ = validateFields m fs p kvs₂
  | .nil, m, p, kvs₁, kvs₂, _ => by simp [validateFields]
  | .cons n typ dflt cstr tl, m, p, kvs₁, kvs₂, h => by
    have hn : kvs₁.lookupV n = kvs₂.lookupV n := h n (by simp [Fields.names])
    have htl := validateFields_congr tl m p kvs₁ kvs₂
      (fun g hg => h g (by simp [Fields.names, hg]))
    simp [validateFields, hn, htl]

theorem validateFields_out_absent :
    ∀ (fs : Fields) (m : Matcher) (p : List PathItem) (kvs : VObj) (f : String),
      kvs.lookupV f = none → (validateFields m fs p kvs).2.lookupV f = none
  | .nil, m, p, kvs, f, h => by simp [validateFields, VObj.lookupV]
  | .cons n typ dflt cstr tl, m, p, kvs, f, h => by
    have htl := validateFields_out_absent tl m p kvs f h
    cases hl : kvs.lookupV n with
    | some fv =>
      have hnf : n ≠ f := by
        intro he
        rw [he, h] at hl
        cases hl
      cases he : entryCheck m cstr (p ++ [.name n]) (validateDesc m typ (p ++ [.name n]) fv) with
      | ok w => simp [validateFields, hl, he, VObj.lookupV, hnf, htl]
      | error es => simp [validateFields, hl, he, htl]
    | none =>
      cases dflt <;> simp [validateFields, hl, htl]

theorem validateFields_out_not_declared :
    ∀ (fs : Fields) (m : Matcher) (p : List PathItem) (kvs : VObj) (f : String),
      ¬ f ∈ fs.names → (validateFields m fs p kvs).2.lookupV f = none
  | .nil, m, p, kvs, f, h => by simp [validateFields, VObj.lookupV]
  | .cons n typ dflt cstr tl, m, p, kvs, f, h => by
    have hnf : n ≠ f := by
      intro he; exact h (by simp [Fields.names, he])
    have htl := validateFields_out_not_declared tl m p kvs f
      (fun hm => h (by simp [Fields.names, hm]))
    cases hl : kvs.lookupV n with
    | some fv =>
      cases he : entryCheck m cstr (p ++ [.name n]) (validateDesc m typ (p ++ [.name n]) fv) with
      | ok w => simp [validateFields, hl, he, VObj.lookupV, hnf, htl]
      | error es => simp [validateFields, hl, he, htl]
    | none =>
      cases dflt <;> simp [validateFields, hl, htl]

mutual
theorem validateDesc_null_ok :
    ∀ (d : Desc) (m : Matcher) (p : List PathItem) (w : Value),
      validateDesc m d p .null = .ok w → w = .null
  | .scalar k, m, p, w => by
    intro h
    cases k <;> simp [validateDesc, coerceScalar] at h <;> simp [← h]
  | .choice allowed, m, p, w => by
    intro h
    by_cases hc : allowed.containsV .null = true <;> simp [validateDesc, hc] at h
    simp [← h]
  | .opt inner, m, p, w => by
    intro h
    simp [validateDesc, Value.isNull] at h
    simp [← h]
  | .object fields, m, p, w => by
    intro h; simp [validateDesc] at h
  | .listOfObject item, m, p, w => by
    intro h; simp [validateDesc] at h
  | .listOfString pat minItems, m, p, w => by
    intro h; simp [validateDesc] at h
  | .union alts, m, p, w => by
    intro h
    cases alts with
    | nil => simp [validateDesc] at h
    | cons a tl =>
      cases ha : validateDesc m a p .null with
      | ok w' =>
        simp [validateDesc, ha] at h
        exact h ▸ validateDesc_null_ok a m p w' ha
      | error es =>
        simp [validateDesc, ha] at h
        cases ht : tryAlts m tl p .null <;> simp [ht] at h
        exact h ▸ tryAlts_null_ok tl m p _ ht

theorem tryAlts_null_ok :
    ∀ (alts : Alts) (m : Matcher) (p : List PathItem) (w : Value),
      tryAlts m alts p .null = some w → w = .null
  | .nil, m, p, w => by intro h; simp [tryAlts] at h
  | .cons a tl, m, p, w => by
    intro h
    cases ha : validateDesc m a p .null with
    | ok w' =>
      simp [tryAlts, ha] at h
      exact h ▸ validateDesc_null_ok a m p w' ha
    | error es =>
      simp [tryAlts, ha] at h
      exact tryAlts_null_ok tl m p w h
end


theorem strElemViol_path (m : Matcher) (pat : Option String) (i : Nat) (p : List PathItem)
    (x : Value) : ∀ viol ∈ strElemViol m pat i p x, viol.path = p ++ [.idx i] := by
  cases x <;> simp [strElemViol]
  case str s =>
    cases pat with
    | none => simp
    | some patt =>
      by_cases hm : m patt s = true <;> simp [hm]

theorem checkStrList_path :
    ∀ (xs : VList) (m : Matcher) (pat : Option String) (i : Nat) (p : List PathItem),
      ∀ viol ∈ checkStrList m pat i p xs, ∃ j, viol.path = p ++ [.idx j]
  | .nil, m, pat, i, p => by simp [checkStrList]
  | .cons x tl, m, pat, i, p => by
    intro viol hm
    simp only [checkStrList, List.mem_append] at hm
    rcases hm with h | h
    · exact ⟨i, strElemViol_path m pat i p x viol h⟩
    · exact checkStrList_path tl m pat (i + 1) p viol h

theorem elemsLoop_errs_path :
    ∀ (xs : VList) (f : Nat → Value → Except (List Violation) Value) (i : Nat)
      (p : List PathItem),
      (∀ (j : Nat) (x : Value), ∀ viol ∈ errsOf (f j x), ∃ rest, viol.path = p ++ rest) →
      ∀ viol ∈ (elemsLoop f i xs).1, ∃ rest, viol.path = p ++ rest
  | .nil, f, i, p, hf => by simp [elemsLoop]
  | .cons x tl, f, i, p, hf => by
    intro viol hm
    have htl := elemsLoop_errs_path tl f (i + 1) p hf
    cases hx : f i x with
    | ok w =>
      simp only [elemsLoop, hx] at hm
      exact htl viol hm
    | error es =>
      simp only [elemsLoop, hx, List.mem_append] at hm
      rcases hm with h | h
      · exact hf i x viol (by simp [errsOf, hx, h])
      · exact htl viol h

mutual
theorem errs_path_ext :
    ∀ (d : Desc) (m : Matcher) (p : List PathItem) (v : Value),
      ∀ viol ∈ errsOf (validateDesc m d p v), ∃ rest, viol.path = p ++ rest
  | .scalar kind, m, p, v => by
    intro viol hm
    cases hc : coerceScalar kind v <;> simp [validateDesc, errsOf, hc] at hm
    exact ⟨[], by simp [hm]⟩
  | .choice allowed, m, p, v => by
    intro viol hm
    by_cases hc : allowed.containsV v = true <;> simp [validateDesc, errsOf, hc] at hm
    exact ⟨[], by simp [hm]⟩
  | .opt inner, m, p, v => by
    intro viol hm
    cases hn : v.isNull <;> simp [validateDesc, hn, errsOf] at hm
    exact errs_path_ext inner m p v viol (by simp [errsOf, hm])
  | .object fields, m, p, v => by
    intro viol hm
    cases v
    all_goals try (simp [validateDesc, errsOf] at hm; refine ⟨[], ?_⟩; simp [hm]; done)
    rename_i kvs
    rcases hv : validateFields m fields p kvs with ⟨fst, snd⟩
    cases fst with
    | nil => simp [validateDesc, hv, errsOf] at hm
    | cons a l =>
      simp only [validateDesc] at hm
      simp only [hv] at hm
      simp [errsOf] at hm
      have := fields_errs_path_ext fields m p kvs viol (by rw [hv]; simpa using hm)
      rcases this with ⟨g, rest, hpath, _⟩
      exact ⟨.name g :: rest, by simp [hpath]⟩
  | .listOfObject item, m, p, v => by
    intro viol hm
    cases v
    all_goals try (simp [validateDesc, errsOf] at hm; refine ⟨[], ?_⟩; simp [hm]; done)
    rename_i xs
    rcases hv : elemsLoop (fun i x => validateDesc m item (p ++ [.idx i]) x) 0 xs with ⟨fst, snd⟩
    cases fst with
    | nil => simp [validateDesc, hv, errsOf] at hm
    | cons a l =>
      simp only [validateDesc] at hm
      simp only [hv] at hm
      simp [errsOf] at hm
      refine elemsLoop_errs_path xs _ 0 p ?_ viol (by rw [hv]; simpa using hm)
      intro j x viol' hm'
      have := errs_path_ext item m (p ++ [.idx j]) x viol' hm'
      rcases this with ⟨rest, hpath⟩
      exact ⟨.idx j :: rest, by simp [hpath]⟩
  | .listOfString pat minItems, m, p, v => by
    intro viol hm
    cases v
    all_goals try (simp [validateDesc, errsOf] at hm; refine ⟨[], ?_⟩; simp [hm]; done)
    rename_i xs
    rcases hv : checkStrList m pat 0 p xs
        ++ (if xs.lengthV < minItems then [⟨p, .too_short⟩] else []) with _ | ⟨a, l⟩
    · simp [validateDesc, hv, errsOf] at hm
    · simp only [validateDesc] at hm
      simp only [hv] at hm
      simp [errsOf] at hm
      have hm' : viol ∈ checkStrList m pat 0 p xs
          ++ (if xs.lengthV < minItems then [⟨p, .too_short⟩] else []) := by
        rw [hv]; simpa using hm
      simp only [List.mem_append] at hm'
      rcases hm' with h | h
      · rcases checkStrList_path xs m pat 0 p viol h with ⟨j, hpath⟩
        exact ⟨[.idx j], hpath⟩
      · by_cases hlen : xs.lengthV < minItems <;> simp [hlen] at h
        exact ⟨[], by simp [h]⟩
  | .union alts, m, p, v => by
    intro viol hm
    cases alts with
    | nil =>
      simp [validateDesc, errsOf] at hm
      exact ⟨[], by simp [hm]⟩
    | cons a tl =>
      cases ha : validateDesc m a p v with
      | ok w => simp [validateDesc, ha, errsOf] at hm
      | error es =>
        cases ht : tryAlts m tl p v with
        | some w => simp [validateDesc, ha, ht, errsOf] at hm
        | none =>
          simp [validateDesc, ha, ht, errsOf] at hm
          rcases hm with h | h
          · exact ⟨[], by simp [h]⟩
          · exact errs_path_ext a m p v viol (by simp [errsOf, ha, h])

theorem fields_errs_path_ext :
    ∀ (fs : Fields) (m : Matcher) (p : List PathItem) (kvs : VObj),
      ∀ viol ∈ (validateFields m fs p kvs).1,
        ∃ g rest, viol.path = (p ++ [.name g]) ++ rest ∧ g ∈ fs.names
  | .nil, m, p, kvs => by simp [validateFields]
  | .cons n typ dflt cstr tl, m, p, kvs => by
    intro viol hm
    have htl := fields_errs_path_ext tl m p kvs
    cases hl : kvs.lookupV n with
    | some fv =>
      cases he : entryCheck m cstr (p ++ [.name n]) (validateDesc m typ (p ++ [.name n]) fv) with
      | ok w =>
        simp only [validateFields, hl, he] at hm
        rcases htl viol hm with ⟨g, rest, hpath, hmem⟩
        exact ⟨g, rest, hpath, by simp [Fields.names, hmem]⟩
      | error es =>
        simp only [validateFields, hl, he, List.mem_append] at hm
        rcases hm with h | h
        · cases hr : validateDesc m typ (p ++ [.name n]) fv with
          | error es' =>
            rw [hr] at he
            simp only [entryCheck] at he
            cases he
            rcases errs_path_ext typ m (p ++ [.name n]) fv viol
              (by simp [errsOf, hr, h]) with ⟨rest, hpath⟩
            exact ⟨n, rest, hpath, by simp [Fields.names]⟩
          | ok w =>
            rw [hr] at he
            simp only [entryCheck] at he
            rcases hc : (if w.isNull then [] else
                checkConstraints m cstr (p ++ [.name n]) w) with _ | ⟨a, l⟩
            · rw [hc] at he; cases he
            · rw [hc] at he
              cases he
              have hv : viol ∈ (if w.isNull then [] else
                  checkConstraints m cstr (p ++ [.name n]) w) := by rw [hc]; exact h
              by_cases hn' : w.isNull = true <;> simp [hn'] at hv
              exact ⟨n, [], by simp [checkConstraints_path m cstr _ w viol hv],
                by simp [Fields.names]⟩
        · rcases htl viol h with ⟨g, rest, hpath, hmem⟩
          exact ⟨g, rest, hpath, by simp [Fields.names, hmem]⟩
    | none =>
      cases dflt with
      | none =>
        simp only [validateFields, hl, List.mem_cons] at hm
        rcases hm with h | h
        · exact ⟨n, [], by simp [h], by simp [Fields.names]⟩
        · rcases htl viol h with ⟨g, rest, hpath, hmem⟩
          exact ⟨g, rest, hpath, by simp [Fields.names, hmem]⟩
      | some dv =>
        simp only [validateFields, hl] at hm
        rcases htl viol hm with ⟨g, rest, hpath, hmem⟩
        exact ⟨g, rest, hpath, by simp [Fields.names, hmem]⟩
end

theorem compileFields_names :
    ∀ (sf : SpecFields) (mn : String) (fs : Fields),
      compileFields mn sf = .ok fs → fs.names = sf.names
  | .nil, mn, fs => by
    intro h
    simp [compileFields] at h
    simp [← h, Fields.names, SpecFields.names]
  | .cons fname props tl, mn, fs => by
    intro h
    cases hp : parse_type_definition mn fname props with
    | error e => simp [compileFields, hp, Bind.bind, Except.bind] at h
    | ok t =>
      cases hr : compileFields mn tl with
      | error e => simp [compileFields, hp, hr, Bind.bind, Except.bind] at h
      | ok rest =>
        simp [compileFields, hp, hr, Bind.bind, Except.bind] at h
        have := compileFields_names tl mn rest hr
        simp [← h, Fields.names, SpecFields.names, this]


theorem toList_mem_names :
    ∀ (sf : SpecFields) (f : String) (props : FieldSpec),
      (f, props) ∈ sf.toList → f ∈ sf.names
  | .nil, f, props => by simp [SpecFields.toList]
  | .cons n s tl, f, props => by
    intro h
    simp only [SpecFields.toList, List.mem_cons, Prod.mk.injEq] at h
    rcases h with ⟨rfl, rfl⟩ | h
    · simp [SpecFields.names]
    · simp [SpecFields.names, toList_mem_names tl f props h]

theorem tryAlts_first :
    ∀ (pre : Alts) (m : Matcher) (p : List PathItem) (v : Value) (a : Desc) (post : Alts)
      (w : Value),
      (∀ b ∈ pre.toList, ∃ es, validateDesc m b p v = .error es) →
      validateDesc m a p v = .ok w →
      tryAlts m (altsApp pre (.cons a post)) p v = some w
  | .nil, m, p, v, a, post, w, hpre, ha => by
    simp [altsApp, tryAlts, ha]
  | .cons b pre', m, p, v, a, post, w, hpre, ha => by
    rcases hpre b (by simp [Alts.toList]) with ⟨es, hb⟩
    have := tryAlts_first pre' m p v a post w
      (fun c hc => hpre c (by simp [Alts.toList, hc])) ha
    simp [altsApp, tryAlts, hb, this]

theorem union_first_match (m : Matcher) (p : List PathItem) (v : Value) (pre : Alts)
    (a : Desc) (post : Alts) (w : Value)
    (hpre : ∀ b ∈ pre.toList, ∃ es, validateDesc m b p v = .error es)
    (ha : validateDesc m a p v = .ok w) :
    validateDesc m (.union (altsApp pre (.cons a post))) p v = .ok w := by
  cases pre with
  | nil => simp [altsApp, validateDesc, ha]
  | cons b pre' =>
    rcases hpre b (by simp [Alts.toList]) with ⟨es, hb⟩
    have ht := tryAlts_first pre' m p v a post w
      (fun c hc => hpre c (by simp [Alts.toList, hc])) ha
    simp [altsApp, validateDesc, hb, ht]

theorem validateFields_app_errs :
    ∀ (fs₁ fs₂ : Fields) (m : Matcher) (p : List PathItem) (kvs : VObj),
      (validateFields m (fieldsApp fs₁ fs₂) p kvs).1 =
        (validateFields m fs₁ p kvs).1 ++ (validateFields m fs₂ p kvs).1
  | .nil, fs₂, m, p, kvs => by simp [fieldsApp, validateFields]
  | .cons n typ dflt cstr tl, fs₂, m, p, kvs => by
    have ih := validateFields_app_errs tl fs₂ m p kvs
    cases hl : kvs.lookupV n with
    | some fv =>
      cases he : entryCheck m cstr (p ++ [.name n]) (validateDesc m typ (p ++ [.name n]) fv) with
      | ok w => simp [fieldsApp, validateFields, hl, he, ih]
      | error es => simp [fieldsApp, validateFields, hl, he, ih]
    | none =>
      cases dflt <;> simp [fieldsApp, validateFields, hl, ih]

theorem elemsLoop_app_errs :
    ∀ (xs₁ xs₂ : VList) (f : Nat → Value → Except (List Violation) Value) (i : Nat),
      (elemsLoop f i (vlistApp xs₁ xs₂)).1 =
        (elemsLoop f i xs₁).1 ++ (elemsLoop f (i + xs₁.lengthV) xs₂).1
  | .nil, xs₂, f, i => by simp [vlistApp, elemsLoop, VList.lengthV]
  | .cons x tl, xs₂, f, i => by
    have ih := elemsLoop_app_errs tl xs₂ f (i + 1)
    have harith : i + 1 + tl.lengthV = i + (VList.cons x tl).lengthV := by
      simp [VList.lengthV]; omega
    rw [harith] at ih
    cases hx : f i x with
    | ok w => simp [vlistApp, elemsLoop, hx, ih]
    | error es => simp [vlistApp, elemsLoop, hx, ih]

theorem strElemViol_nil_iff (m : Matcher) (pat : Option String) (i : Nat)
    (p : List PathItem) (x : Value) :
    strElemViol m pat i p x = [] ↔
      ∃ s, x = .str s ∧ ∀ patt, pat = some patt → m patt s = true := by
  cases x <;> simp [strElemViol]
  case str s =>
    cases pat with
    | none => simp
    | some patt => by_cases hm : m patt s = true <;> simp [hm]

theorem checkStrList_nil_iff :
    ∀ (xs : VList) (m : Matcher) (pat : Option String) (i : Nat) (p : List PathItem),
      checkStrList m pat i p xs = [] ↔
        ∀ x ∈ xs.toList, ∃ s, x = .str s ∧ ∀ patt, pat = some patt → m patt s = true
  | .nil, m, pat, i, p => by simp [checkStrList, VList.toList]
  | .cons x tl, m, pat, i, p => by
    simp only [checkStrList, List.append_eq_nil, VList.toList, List.mem_cons]
    rw [strElemViol_nil_iff, checkStrList_nil_iff tl m pat (i + 1) p]
    constructor
    · rintro ⟨hx, htl⟩ y (rfl | hy)
      · exact hx
      · exact htl y hy
    · intro h
      exact ⟨h x (Or.inl rfl), fun y hy => h y (Or.inr hy)⟩

mutual
theorem wf_parse_ok :
    ∀ (props : FieldSpec) (mn fn : String),
      wellFormedSpec props = true → ∃ d, parse_type_definition mn fn props = .ok d
  | .mk (.some .nil) t r df vb mo, mn, fn => by
    intro hwf
    simp [wellFormedSpec] at hwf
  | .mk (.some (.cons a tl)) t r df vb mo, mn, fn => by
    intro hwf
    simp only [wellFormedSpec, Bool.and_eq_true] at hwf
    rcases wf_parseAlts_ok (.cons a tl) mn fn hwf.2 with ⟨ds, hds⟩
    cases ds with
    | nil =>
      exfalso
      cases ha : parse_type_definition mn fn a <;>
        cases htl : parseAlts mn fn tl <;>
          simp [parseAlts, ha, htl, Bind.bind, Except.bind] at hds
    | cons d ds' =>
      cases ds' with
      | nil => exact ⟨d, by simp [parse_type_definition, hds, Bind.bind, Except.bind]⟩
      | cons d' ds'' =>
        exact ⟨.union (.cons d (.cons d' ds'')),
          by simp [parse_type_definition, hds, Bind.bind, Except.bind]⟩
  | .mk .none t r df ⟨pb, pge, ple, pml, some .nil⟩ mo, mn, fn => by
    intro hwf
    simp [wellFormedSpec] at hwf
  | .mk .none t r df ⟨pb, pge, ple, pml, some (.cons c cs')⟩ mo, mn, fn => by
    intro hwf
    exact ⟨.choice (.cons c cs'), by simp [parse_type_definition]⟩
  | .mk .none t r df ⟨pb, pge, ple, pml, none⟩ (.some mf), mn, fn => by
    intro hwf
    simp only [wellFormedSpec] at hwf
    by_cases hm : t.getD "str" = "model"
    · have hwf' : wellFormedFields mf = true := by
        rw [if_pos (Or.inl hm)] at hwf
        exact hwf
      rcases wf_compileFields_ok mf (mn ++ "_" ++ fn) hwf' with ⟨fs, hfs⟩
      exact ⟨.object fs, by simp [parse_type_definition, hm, hfs, Bind.bind, Except.bind]⟩
    · by_cases hlm : t.getD "str" = "list[model]"
      · have hwf' : wellFormedFields mf = true := by
          rw [if_pos (Or.inr hlm)] at hwf
          exact hwf
        rcases wf_compileFields_ok mf (mn ++ "_" ++ fn ++ "_item") hwf' with ⟨fs, hfs⟩
        exact ⟨.listOfObject (.object fs),
          by simp [parse_type_definition, hm, hlm, hfs, Bind.bind, Except.bind]⟩
      · by_cases hls : t.getD "str" = "list[str]"
        · cases pb with
          | some pat =>
            exact ⟨.listOfString (some pat) 1,
              by simp [parse_type_definition, hm, hlm, hls]⟩
          | none =>
            exact ⟨.listOfString none 0,
              by simp [parse_type_definition, hm, hlm, hls]⟩
        · exact ⟨.scalar (TYPE_MAPPING (t.getD "str")),
            by simp [parse_type_definition, hm, hlm, hls]⟩
  | .mk .none t r df ⟨pb, pge, ple, pml, none⟩ .none, mn, fn => by
    intro hwf
    simp only [wellFormedSpec] at hwf
    by_cases hm : t.getD "str" = "model"
    · rw [if_pos (Or.inl hm)] at hwf
      simp at hwf
    · by_cases hlm : t.getD "str" = "list[model]"
      · rw [if_pos (Or.inr hlm)] at hwf
        simp at hwf
      · by_cases hls : t.getD "str" = "list[str]"
        · cases pb with
          | some pat =>
            exact ⟨.listOfString (some pat) 1,
              by simp [parse_type_definition, hm, hlm, hls]⟩
          | none =>
            exact ⟨.listOfString none 0,
              by simp [parse_type_definition, hm, hlm, hls]⟩
        · exact ⟨.scalar (TYPE_MAPPING (t.getD "str")),
            by simp [parse_type_definition, hm, hlm, hls]⟩

theorem wf_parseAlts_ok :
    ∀ (alts : SpecAlts) (mn fn : String),
      wellFormedAlts alts = true → ∃ ds, parseAlts mn fn alts = .ok ds
  | .nil, mn, fn => by
    intro hwf
    exact ⟨.nil, by simp [parseAlts]⟩
  | .cons a tl, mn, fn => by
    intro hwf
    simp only [wellFormedAlts, Bool.and_eq_true] at hwf
    rcases wf_parse_ok a mn fn hwf.1 with ⟨d, hd⟩
    rcases wf_parseAlts_ok tl mn fn hwf.2 with ⟨ds, hds⟩
    exact ⟨.cons d ds, by simp [parseAlts, hd, hds, Bind.bind, Except.bind]⟩

theorem wf_compileFields_ok :
    ∀ (sf : SpecFields) (mn : String),
      wellFormedFields sf = true → ∃ fs, compileFields mn sf = .ok fs
  | .nil, mn => by
    intro hwf
    exact ⟨.nil, by simp [compileFields]⟩
  | .cons fname props tl, mn => by
    intro hwf
    simp only [wellFormedFields, Bool.and_eq_true] at hwf
    rcases wf_parse_ok props mn fname hwf.1 with ⟨t, ht⟩
    rcases wf_compileFields_ok tl mn hwf.2 with ⟨rest, hrest⟩
    exact ⟨.cons fname (fieldTypeHint props t) (fieldDefault props) (fieldArgs props) rest,
      by simp [compileFields, ht, hrest, Bind.bind, Except.bind]⟩
end


theorem entry_errs_path (m : Matcher) (cstr : FieldConstraints) (p' : List PathItem)
    (typ : Desc) (fv : Value) :
    ∀ viol ∈ errsOf (entryCheck m cstr p' (validateDesc m typ p' fv)),
      ∃ rest, viol.path = p' ++ rest := by
  intro viol hm
  cases hr : validateDesc m typ p' fv with
  | error es' =>
    rw [hr] at hm
    simp only [entryCheck, errsOf] at hm
    exact errs_path_ext typ m p' fv viol (by simp [errsOf, hr, hm])
  | ok w =>
    rw [hr] at hm
    simp only [entryCheck] at hm
    rcases hc : (if w.isNull then [] else checkConstraints m cstr p' w) with _ | ⟨a, l⟩
    · rw [hc] at hm; simp [errsOf] at hm
    · rw [hc] at hm
      simp [errsOf] at hm
      have hv : viol ∈ (if w.isNull then [] else checkConstraints m cstr p' w) := by
        rw [hc]; simpa using hm
      by_cases hn' : w.isNull = true <;> simp [hn'] at hv
      exact ⟨[], by simp [checkConstraints_path m cstr p' w viol hv]⟩

theorem count_zero_of_not_declared (fs : Fields) (m : Matcher) (kvs : VObj) (f : String)
    (hf : ¬ f ∈ fs.names) :
    ((validateFields m fs [] kvs).1.countP
      (fun viol => viol == ⟨[.name f], .missing_required⟩)) = 0 := by
  rw [List.countP_eq_zero]
  intro viol hm
  rcases fields_errs_path_ext fs m [] kvs viol hm with ⟨g, rest, hpath, hgmem⟩
  simp only [List.nil_append] at hpath
  simp only [beq_iff_eq]
  intro he
  rw [he] at hpath
  simp at hpath
  exact hf (hpath.1 ▸ hgmem)

theorem missing_required_count :
    ∀ (sf : SpecFields) (mn : String) (m : Matcher) (fs : Fields) (kvs : VObj)
      (f : String) (props : FieldSpec),
      compileFields mn sf = .ok fs →
      nodupKeys sf.names = true →
      (f, props) ∈ sf.toList →
      props.required = true →
      props.default = none →
      kvs.lookupV f = none →
      ((validateFields m fs [] kvs).1.countP
          (fun viol => viol == ⟨[.name f], .missing_required⟩)) = 1
  | .nil, mn, m, fs, kvs, f, props => by
    intro _ _ hmem
    simp [SpecFields.toList] at hmem
  | .cons g q tl, mn, m, fs, kvs, f, props => by
    intro hcomp hnd hmem hreq hdef hlook
    cases hp : parse_type_definition mn g q with
    | error e => simp [compileFields, hp, Bind.bind, Except.bind] at hcomp
    | ok t =>
      cases hr : compileFields mn tl with
      | error e => simp [compileFields, hp, hr, Bind.bind, Except.bind] at hcomp
      | ok rest =>
        simp only [compileFields, hp, hr, Bind.bind, Except.bind] at hcomp
        cases hcomp
        simp only [SpecFields.names, nodupKeys, Bool.and_eq_true] at hnd
        have hg_not_tl : ¬ g ∈ tl.names := by simpa using hnd.1
        have hrest_names : rest.names = tl.names := compileFields_names tl mn rest hr
        simp only [SpecFields.toList, List.mem_cons, Prod.mk.injEq] at hmem
        rcases hmem with ⟨rfl, rfl⟩ | hmem
        · -- the field itself heads the mapping
          have hfd : fieldDefault props = none := by
            simp [fieldDefault, hdef, hreq]
          have hcount0 : ((validateFields m rest [] kvs).1.countP
              (fun viol => viol == ⟨[.name f], .missing_required⟩)) = 0 :=
            count_zero_of_not_declared rest m kvs f (hrest_names ▸ hg_not_tl)
          simp [validateFields, hlook, hfd, List.countP_cons, hcount0]
        · have hf_tl : f ∈ tl.names := toList_mem_names tl f props hmem
          have hgf : g ≠ f := fun he => hg_not_tl (he ▸ hf_tl)
          have ih := missing_required_count tl mn m rest kvs f props hr hnd.2 hmem hreq hdef hlook
          cases hlg : kvs.lookupV g with
          | some gv =>
            cases he : entryCheck m (fieldArgs q) [.name g]
                (validateDesc m (fieldTypeHint q t) [.name g] gv) with
            | ok w =>
              simp only [validateFields, List.nil_append, hlg, he]
              exact ih
            | error es =>
              have hes0 : es.countP (fun viol => viol == ⟨[.name f], .missing_required⟩) = 0 := by
                rw [List.countP_eq_zero]
                intro viol hm'
                have := entry_errs_path m (fieldArgs q) [.name g]
                  (fieldTypeHint q t) gv viol (by simp [errsOf, he, hm'])
                rcases this with ⟨rst, hpath⟩
                simp only [beq_iff_eq]
                intro hv
                rw [hv] at hpath
                simp at hpath
                exact hgf hpath.1.symm
              simp only [validateFields, List.nil_append, hlg, he]
              rw [List.countP_append, hes0]
              simp only [Nat.zero_add]
              exact ih
          | none =>
            cases hfd : fieldDefault q with
            | none =>
              simp only [validateFields, List.nil_append, hlg, hfd, List.countP_cons]
              have hhead : ((⟨[.name g], .missing_required⟩ : Violation) ==
                  (⟨[.name f], .missing_required⟩ : Violation)) = false := by
                simp [Violation.mk.injEq, hgf]
              rw [hhead]
              simpa using ih
            | some dv =>
              simp only [validateFields, hlg, hfd]
              exact ih


theorem isNull_eq (w : Value) (h : w.isNull = true) : w = .null := by
  cases w <;> simp [Value.isNull] at h ⊢

theorem entryCheck_ok_elim (m : Matcher) (c : FieldConstraints) (p : List PathItem)
    (r : Except (List Violation) Value) (w : Value) (h : entryCheck m c p r = .ok w) :
    r = .ok w ∧ (if w.isNull then [] else checkConstraints m c p w) = [] := by
  cases r with
  | error es => simp [entryCheck] at h
  | ok w' =>
    rcases hc : (if w'.isNull then [] else checkConstraints m c p w') with _ | ⟨a, l⟩ <;>
      simp only [entryCheck, hc] at h
    · cases h
      exact ⟨rfl, hc⟩
    · cases h

theorem elemsLoop_idem :
    ∀ (xs : VList) (f : Nat → Value → Except (List Violation) Value) (i : Nat) (outs : VList),
      (∀ (j : Nat) (x : Value), f j x ≠ .error []) →
      (∀ (j : Nat) (x w : Value), f j x = .ok w → f j w = .ok w) →
      elemsLoop f i xs = ([], outs) → elemsLoop f i outs = ([], outs)
  | .nil, f, i, outs, hne, hidem => by
    intro h
    simp [elemsLoop] at h
    simp [elemsLoop, ← h]
  | .cons x tl, f, i, outs, hne, hidem => by
    intro h
    cases hx : f i x with
    | error es =>
      simp only [elemsLoop, hx] at h
      have h1 : es ++ (elemsLoop f (i + 1) tl).1 = [] := congrArg Prod.fst h
      rcases List.append_eq_nil.mp h1 with ⟨hes, _⟩
      exact absurd (hes ▸ hx) (hne i x)
    | ok w =>
      simp only [elemsLoop, hx] at h
      have h1 : (elemsLoop f (i + 1) tl).1 = [] := congrArg Prod.fst h
      have h2 : VList.cons w (elemsLoop f (i + 1) tl).2 = outs := congrArg Prod.snd h
      have htl : elemsLoop f (i + 1) tl = ([], (elemsLoop f (i + 1) tl).2) := by
        rw [← h1]
      have ih := elemsLoop_idem tl f (i + 1) (elemsLoop f (i + 1) tl).2 hne hidem htl
      rw [← h2]
      simp [elemsLoop, hidem i x w hx, ih]

mutual
theorem validate_idem :
    ∀ (d : Desc) (m : Matcher) (p : List PathItem) (x w : Value),
      unionFree d = true → dictDesc d = true →
      validateDesc m d p x = .ok w → validateDesc m d p w = .ok w
  | .scalar kind, m, p, x, w => by
    intro _ _ h
    cases hc : coerceScalar kind x <;> simp only [validateDesc, hc] at h
    · cases h
    · simp only [Except.ok.injEq] at h
      subst h
      simp [validateDesc, coerce_idem kind x _ hc]
  | .choice allowed, m, p, x, w => by
    intro _ _ h
    by_cases hc : allowed.containsV x = true <;> simp only [validateDesc, hc] at h <;>
      simp at h
    cases h
    simp [validateDesc, hc]
  | .opt inner, m, p, x, w => by
    intro hu hd h
    simp only [unionFree] at hu
    simp only [dictDesc] at hd
    cases hn : x.isNull with
    | true =>
      simp [validateDesc, hn] at h
      subst h
      simp [validateDesc, Value.isNull]
    | false =>
      simp only [validateDesc, hn, Bool.false_eq_true, if_false] at h
      have ih := validate_idem inner m p x w hu hd h
      cases hw : w.isNull with
      | true => simp [validateDesc, Value.isNull, isNull_eq w hw]
      | false => simp [validateDesc, hw, ih]
  | .object fields, m, p, x, w => by
    intro hu hd h
    simp only [unionFree] at hu
    simp only [dictDesc, Bool.and_eq_true] at hd
    cases x <;> simp only [validateDesc] at h <;> try cases h
    case obj kvs =>
      rcases hv : validateFields m fields p kvs with ⟨fst, snd⟩
      rw [hv] at h
      cases fst with
      | cons a l => simp at h
      | nil =>
        simp at h
        have hfi := validateFields_idem fields m p kvs snd hu hd.2 hd.1 hv
        rw [← h]
        simp [validateDesc, hfi]
  | .listOfObject item, m, p, x, w => by
    intro hu hd h
    simp only [unionFree] at hu
    simp only [dictDesc] at hd
    cases x <;> simp only [validateDesc] at h <;> try cases h
    case list xs =>
      rcases hv : elemsLoop (fun i x => validateDesc m item (p ++ [.idx i]) x) 0 xs
        with ⟨fst, snd⟩
      rw [hv] at h
      cases fst with
      | cons a l => simp at h
      | nil =>
        simp at h
        have hloop := elemsLoop_idem xs _ 0 snd
          (fun j x he => validateDesc_error_ne item m (p ++ [.idx j]) x [] he rfl)
          (fun j x w' hx => validate_idem item m (p ++ [.idx j]) x w' hu hd hx)
          hv
        rw [← h]
        simp [validateDesc, hloop]
  | .listOfString pat minItems, m, p, x, w => by
    intro _ _ h
    cases x <;> simp only [validateDesc] at h <;> try cases h
    case list xs =>
      rcases hv : checkStrList m pat 0 p xs
          ++ (if xs.lengthV < minItems then [⟨p, .too_short⟩] else []) with _ | ⟨a, l⟩ <;>
        rw [hv] at h
      · simp at h
        cases h
        simp only [validateDesc]
        rw [hv]
      · simp at h
  | .union alts, m, p, x, w => by
    intro hu
    simp [unionFree] at hu

theorem validateFields_idem :
    ∀ (fs : Fields) (m : Matcher) (p : List PathItem) (kvs outs : VObj),
      unionFreeFields fs = true → dictFields fs = true → nodupKeys fs.names = true →
      validateFields m fs p kvs = ([], outs) → validateFields m fs p outs = ([], outs)
  | .nil, m, p, kvs, outs => by
    intro _ _ _ h
    simp [validateFields] at h
    simp [validateFields, ← h]
  | .cons n typ dflt cstr tl, m, p, kvs, outs => by
    intro hu hd hnd h
    simp only [unionFreeFields, Bool.and_eq_true] at hu
    simp only [dictFields, Bool.and_eq_true] at hd
    simp only [Fields.names, nodupKeys, Bool.and_eq_true] at hnd
    have hn_not_tl : ¬ n ∈ tl.names := by simpa using hnd.1
    cases hl : kvs.lookupV n with
    | some fv =>
      cases he : entryCheck m cstr (p ++ [.name n])
          (validateDesc m typ (p ++ [.name n]) fv) with
      | error es =>
        simp only [validateFields, hl, he] at h
        have h1 : es ++ (validateFields m tl p kvs).1 = [] := congrArg Prod.fst h
        rcases List.append_eq_nil.mp h1 with ⟨hes, _⟩
        exact absurd hes (entryCheck_error_ne m cstr (p ++ [.name n]) typ fv es he)
      | ok w' =>
        simp only [validateFields, hl, he] at h
        have h1 : (validateFields m tl p kvs).1 = [] := congrArg Prod.fst h
        have h2 : VObj.cons n w' (validateFields m tl p kvs).2 = outs := congrArg Prod.snd h
        set outs' := (validateFields m tl p kvs).2 with houts'
        have htl : validateFields m tl p kvs = ([], outs') := by
          rw [houts', ← h1]
        have ihtl := validateFields_idem tl m p kvs outs' hu.2 hd.2 hnd.2 htl
        rcases entryCheck_ok_elim m cstr (p ++ [.name n])
          (validateDesc m typ (p ++ [.name n]) fv) w' he with ⟨hr, hcc⟩
        have hdesc := validate_idem typ m (p ++ [.name n]) fv w' hu.1 hd.1 hr
        have he2 : entryCheck m cstr (p ++ [.name n])
            (validateDesc m typ (p ++ [.name n]) w') = .ok w' := by
          rw [hdesc]
          simp only [entryCheck, hcc]
        have hcongr : validateFields m tl p (VObj.cons n w' outs') =
            validateFields m tl p outs' := by
          refine validateFields_congr tl m p _ _ ?_
          intro g hg
          have hgn : n ≠ g := fun hgn => hn_not_tl (hgn ▸ hg)
          simp [VObj.lookupV, hgn]
        rw [← h2]
        simp [validateFields, VObj.lookupV, he2, hcongr, ihtl]
    | none =>
      cases dflt with
      | none =>
        simp only [validateFields, hl] at h
        have h1 : (⟨p ++ [.name n], .missing_required⟩ : Violation) ::
            (validateFields m tl p kvs).1 = [] := congrArg Prod.fst h
        cases h1
      | some dv =>
        simp only [validateFields, hl] at h
        have ihtl := validateFields_idem tl m p kvs outs hu.2 hd.2 hnd.2 h
        have houtn : outs.lookupV n = none := by
          have := validateFields_out_absent tl m p kvs n hl
          rw [h] at this
          exact this
        simp [validateFields, houtn, ihtl]
end


theorem null_in_out :
    ∀ (fs : Fields) (m : Matcher) (p : List PathItem) (kvs outs : VObj) (f : String),
      validateFields m fs p kvs = ([], outs) → f ∈ fs.names →
      kvs.lookupV f = some .null → outs.lookupV f = some .null
  | .nil, m, p, kvs, outs, f => by
    intro _ hf
    simp [Fields.names] at hf
  | .cons n typ dflt cstr tl, m, p, kvs, outs, f => by
    intro h hf hlook
    by_cases hnf : n = f
    · subst hnf
      cases he : entryCheck m cstr (p ++ [.name n])
          (validateDesc m typ (p ++ [.name n]) .null) with
      | error es =>
        simp only [validateFields, hlook, he] at h
        have h1 : es ++ (validateFields m tl p kvs).1 = [] := congrArg Prod.fst h
        rcases List.append_eq_nil.mp h1 with ⟨hes, _⟩
        exact absurd hes (entryCheck_error_ne m cstr (p ++ [.name n]) typ .null es he)
      | ok w =>
        simp only [validateFields, hlook, he] at h
        have h2 : VObj.cons n w (validateFields m tl p kvs).2 = outs := congrArg Prod.snd h
        rcases entryCheck_ok_elim m cstr (p ++ [.name n])
          (validateDesc m typ (p ++ [.name n]) .null) w he with ⟨hr, _⟩
        have hw : w = .null := validateDesc_null_ok typ m (p ++ [.name n]) w hr
        rw [← h2, hw]
        simp [VObj.lookupV]
    · have hf_tl : f ∈ tl.names := by
        simp only [Fields.names, List.mem_cons] at hf
        rcases hf with hf | hf
        · exact absurd hf.symm hnf
        · exact hf
      cases hl : kvs.lookupV n with
      | some gv =>
        cases he : entryCheck m cstr (p ++ [.name n])
            (validateDesc m typ (p ++ [.name n]) gv) with
        | error es =>
          simp only [validateFields, hl, he] at h
          have h1 : es ++ (validateFields m tl p kvs).1 = [] := congrArg Prod.fst h
          rcases List.append_eq_nil.mp h1 with ⟨hes, _⟩
          exact absurd hes (entryCheck_error_ne m cstr (p ++ [.name n]) typ gv es he)
        | ok w =>
          simp only [validateFields, hl, he] at h
          have h1 : (validateFields m tl p kvs).1 = [] := congrArg Prod.fst h
          have h2 : VObj.cons n w (validateFields m tl p kvs).2 = outs := congrArg Prod.snd h
          have htl : validateFields m tl p kvs = ([], (validateFields m tl p kvs).2) := by
            rw [← h1]
          have ih := null_in_out tl m p kvs (validateFields m tl p kvs).2 f htl hf_tl hlook
          rw [← h2]
          simpa [VObj.lookupV, hnf] using ih
      | none =>
        cases dflt with
        | none =>
          simp only [validateFields, hl] at h
          have h1 : (⟨p ++ [.name n], .missing_required⟩ : Violation) ::
              (validateFields m tl p kvs).1 = [] := congrArg Prod.fst h
          cases h1
        | some dv =>
          simp only [validateFields, hl] at h
          exact null_in_out tl m p kvs outs f h hf_tl hlook

theorem parse_scalar_shape (mn fn : String) (props : FieldSpec) (t : String)
    (hu : props.union = .none) (hch : props.validation.choices = none)
    (hty : props.type? = some t)
    (hm : t ≠ "model") (hlm : t ≠ "list[model]") (hls : t ≠ "list[str]") :
    parse_type_definition mn fn props = .ok (.scalar (TYPE_MAPPING t)) := by
  rcases props with ⟨u, ty, r, df, ⟨pb, pge, ple, pml, pch⟩, mo⟩
  simp only [FieldSpec.union] at hu
  simp only [FieldSpec.validation] at hch
  simp only [FieldSpec.type?] at hty
  subst hu
  subst hty
  subst hch
  cases mo <;> cases pb <;> simp [parse_type_definition, Option.getD, hm, hlm, hls]

theorem no_pattern_no_restriction (m : Matcher) (c : FieldConstraints) (p : List PathItem)
    (v : Value) (hc : c.pattern = none) :
    ¬ (⟨p, .pattern_mismatch⟩ : Violation) ∈ checkConstraints m c p v := by
  intro hmem
  simp only [checkConstraints, List.mem_append] at hmem
  rcases hmem with ((h | h) | h) | h
  · rw [hc] at h
    simp [patternOk, constraintViol] at h
  · rcases constraintViol_path p .too_long _ _ h with ⟨_, hr⟩
    cases hr
  · rcases constraintViol_path p .out_of_range _ _ h with ⟨_, hr⟩
    cases hr
  · rcases constraintViol_path p .out_of_range _ _ h with ⟨_, hr⟩
    cases hr

theorem listOfString_ok_iff (m : Matcher) (pat : Option String) (minItems : Nat)
    (p : List PathItem) (v w : Value) :
    validateDesc m (.listOfString pat minItems) p v = .ok w ↔
      (w = v ∧ ∃ xs, v = .list xs ∧ minItems ≤ xs.lengthV ∧
        ∀ x ∈ xs.toList, ∃ s, x = .str s ∧ ∀ patt, pat = some patt → m patt s = true) := by
  cases v
  case list xs =>
    rcases hv : checkStrList m pat 0 p xs
        ++ (if xs.lengthV < minItems then [⟨p, .too_short⟩] else []) with _ | ⟨a, l⟩
    · rcases List.append_eq_nil.mp hv with ⟨hstr, hlen⟩
      have hmin : minItems ≤ xs.lengthV := by
        by_cases hl : xs.lengthV < minItems
        · simp [hl] at hlen
        · omega
      constructor
      · intro h
        simp only [validateDesc] at h
        rw [hv] at h
        simp at h
        exact ⟨h.symm, xs, rfl, hmin, (checkStrList_nil_iff xs m pat 0 p).mp hstr⟩
      · rintro ⟨rfl, xs', hxs', _, _⟩
        cases hxs'
        simp only [validateDesc]
        rw [hv]
    · constructor
      · intro h
        simp only [validateDesc] at h
        rw [hv] at h
        simp at h
      · rintro ⟨rfl, xs', hxs', hmin, hall⟩
        cases hxs'
        exfalso
        have hstr : checkStrList m pat 0 p xs = [] :=
          (checkStrList_nil_iff xs m pat 0 p).mpr hall
        have hlen : (if xs.lengthV < minItems then
            ([⟨p, .too_short⟩] : List Violation) else []) = [] := by
          have : ¬ xs.lengthV < minItems := by omega
          simp [this]
        rw [hstr, hlen] at hv
        cases hv
  all_goals {
    constructor
    · intro h
      simp [validateDesc] at h
    · rintro ⟨rfl, xs', hxs', _, _⟩
      cases hxs'
  }


/-- A matcher that rejects every string, used for concrete evaluations of
schemas that declare no pattern (or whose pattern is meant to fail). -/
def matchNone : Matcher := fun _ _ => false

/-- A matcher that accepts every string. -/
def matchAll : Matcher := fun _ _ => true

/-- A schema with a single required int field that also declares an
explicit default, the configuration at issue in claim C1. -/
def requiredWithDefaultSchema : SpecFields :=
  .cons "r" (.mk .none (some "int") true (some (.int 7)) noValidation .none) .nil

/-- The descriptor compiled from requiredWithDefaultSchema: the explicit
default displaces the Ellipsis sentinel, so the field is not required at
validation time. -/
def dRequiredWithDefault : Desc :=
  .object (.cons "r" (.scalar .int) (some (.int 7)) noConstraints .nil)

/-- C1, counterexample: the claim asserts that a required field absent
from the input always yields a missing_required failure, even when the
field declares an explicit default. On the code, a required field with
an explicit default compiles to a field whose default displaces the
must-be-supplied sentinel (model_service.py line 70), so the empty input
validates successfully — no failure, no violation. -/
theorem C1_counterexample :
    create_model_from_schema "cfg" requiredWithDefaultSchema = .ok dRequiredWithDefault ∧
    validateDesc matchNone dRequiredWithDefault [] (.obj .nil) = .ok (.obj .nil) :=
  ⟨by decide, by decide⟩

/-- C1 (amended): for every compiled schema and every field marked
required in that schema that declares no explicit default, if the input
mapping does not contain that field, validation fails with exactly one
missing_required violation located at that field's path, and the overall
result is a failure report, never a partial success. -/
theorem C1_missing_required_amended
    (m : Matcher) (model_name : String) (sf : SpecFields) (fs : Fields) (kvs : VObj)
    (f : String) (props : FieldSpec)
    (hcomp : create_model_from_schema model_name sf = .ok (.object fs))
    (hnd : nodupKeys sf.names = true)
    (hmem : (f, props) ∈ sf.toList)
    (hreq : props.required = true)
    (hdef : props.default = none)
    (hlook : kvs.lookupV f = none) :
    ∃ es, validateDesc m (.object fs) [] (.obj kvs) = .error es ∧
      es.countP (fun viol => viol == ⟨[.name f], .missing_required⟩) = 1 := by
  cases hcf : compileFields model_name sf with
  | error e => simp [create_model_from_schema, hcf, Bind.bind, Except.bind] at hcomp
  | ok fs' =>
    have hfs : fs' = fs := by
      simpa [create_model_from_schema, hcf, Bind.bind, Except.bind] using hcomp
    subst hfs
    have hcount := missing_required_count sf model_name m fs' kvs f props hcf hnd hmem
      hreq hdef hlook
    rcases hv : validateFields m fs' [] kvs with ⟨fst, snd⟩
    rw [hv] at hcount
    cases fst with
    | nil => simp at hcount
    | cons a l =>
      refine ⟨a :: l, ?_, ?_⟩
      · simp [validateDesc, hv]
      · simpa using hcount

/-- The same single required int field, without a default. -/
def requiredNoDefaultSchema : SpecFields :=
  .cons "r" (.mk .none (some "int") true none noValidation .none) .nil

/-- C1 witness: the amended statement evaluated on the one-field schema
with empty input. -/
theorem C1_missing_required_witness :
    ∃ es, validateDesc matchNone
        (.object (.cons "r" (.scalar .int) none noConstraints .nil)) [] (.obj .nil) =
        .error es ∧
      es.countP (fun viol => viol == ⟨[.name "r"], .missing_required⟩) = 1 :=
  C1_missing_required_amended matchNone "cfg" requiredNoDefaultSchema
    (.cons "r" (.scalar .int) none noConstraints .nil) .nil "r"
    (.mk .none (some "int") true none noValidation .none)
    (by decide) (by decide) (by decide) (by decide) (by decide) (by decide)

/-- The raw field spec of a union over a bare int and a bare str, the
union of scenario 6. -/
def unionIntStrSpec : FieldSpec :=
  .mk (.some (.cons (.mk .none (some "int") false none noValidation .none)
    (.cons (.mk .none (some "str") false none noValidation .none) .nil)))
    none true none noValidation .none

/-- C2: union alternatives are tried in declaration order and the first
alternative that validates without error determines the validated value:
whenever every alternative before a validates with an error and a itself
validates to w, the whole union validates to w. Moreover the compiler
turns the union of scenario 6 into exactly the ordered int-then-str
union descriptor. -/
theorem C2_union_first_match :
    (∀ (m : Matcher) (p : List PathItem) (v : Value) (pre : Alts) (a : Desc)
      (post : Alts) (w : Value),
      (∀ b ∈ pre.toList, ∃ es, validateDesc m b p v = .error es) →
      validateDesc m a p v = .ok w →
      validateDesc m (.union (altsApp pre (.cons a post))) p v = .ok w)
    ∧ parse_type_definition "cfg" "f" unionIntStrSpec =
        .ok (.union (.cons (.scalar .int) (.cons (.scalar .str) .nil))) :=
  ⟨union_first_match, by decide⟩

/-- C2 witness: scenario 6 — the string input matches the str
alternative after the int alternative fails, and the validated value is
the uncoerced string. -/
theorem C2_union_first_match_witness :
    validateDesc matchNone
      (.union (altsApp (.cons (.scalar .int) .nil) (.cons (.scalar .str) .nil)))
      [] (.str "42") = .ok (.str "42") :=
  C2_union_first_match.1 matchNone [] (.str "42") (.cons (.scalar .int) .nil)
    (.scalar .str) .nil (.str "42")
    (by
      intro b hb
      simp [Alts.toList] at hb
      subst hb
      exact ⟨[⟨[], .type_mismatch⟩], by decide⟩)
    (by decide)

/-- C3: validation never halts early — the violations of a concatenation
of declared fields are the concatenation of each part's violations, the
violations of a concatenation of list elements are the concatenation of
each part's violations, and on a single scalar whose pattern and
max_length are both violated, both constraint violations are recorded. -/
theorem C3_all_violations_aggregated (m : Matcher) :
    (∀ (fs₁ fs₂ : Fields) (p : List PathItem) (kvs : VObj),
      (validateFields m (fieldsApp fs₁ fs₂) p kvs).1 =
        (validateFields m fs₁ p kvs).1 ++ (validateFields m fs₂ p kvs).1)
    ∧ (∀ (xs₁ xs₂ : VList) (item : Desc) (p : List PathItem),
      (elemsLoop (fun i x => validateDesc m item (p ++ [.idx i]) x) 0 (vlistApp xs₁ xs₂)).1 =
        (elemsLoop (fun i x => validateDesc m item (p ++ [.idx i]) x) 0 xs₁).1 ++
        (elemsLoop (fun i x => validateDesc m item (p ++ [.idx i]) x) xs₁.lengthV xs₂).1)
    ∧ (∀ (c : FieldConstraints) (p : List PathItem) (s pat : String) (len : Nat),
      c.pattern = some pat → c.max_length = some len → m pat s = false → len < s.length →
      (⟨p, .pattern_mismatch⟩ : Violation) ∈ checkConstraints m c p (.str s) ∧
      (⟨p, .too_long⟩ : Violation) ∈ checkConstraints m c p (.str s)) := by
  refine ⟨fun fs₁ fs₂ p kvs => validateFields_app_errs fs₁ fs₂ m p kvs,
    fun xs₁ xs₂ item p => ?_, fun c p s pat len hpat hlen hnm hlong => ?_⟩
  · have := elemsLoop_app_errs xs₁ xs₂
      (fun i x => validateDesc m item (p ++ [.idx i]) x) 0
    simpa using this
  · constructor
    · simp only [checkConstraints, List.mem_append]
      left; left; left
      simp [constraintViol, patternOk, hpat, hnm]
    · simp only [checkConstraints, List.mem_append]
      left; left; right
      have : maxLenOk c.max_length (.str s) = false := by
        simp [maxLenOk, hlen]
        omega
      simp [constraintViol, this]

/-- The constraint bag with both a pattern and a max_length of three,
used to evaluate claim C3. -/
def patternAndLengthConstraints : FieldConstraints := ⟨some "P", none, none, some 3⟩

/-- C3 witness: on the five-character input, with a matcher rejecting
the pattern, both the pattern violation and the length violation appear
in the report. -/
theorem C3_all_violations_witness :
    (⟨[], .pattern_mismatch⟩ : Violation) ∈
      checkConstraints matchNone patternAndLengthConstraints [] (.str "ABCDE") ∧
    (⟨[], .too_long⟩ : Violation) ∈
      checkConstraints matchNone patternAndLengthConstraints [] (.str "ABCDE") :=
  (C3_all_violations_aggregated matchNone).2.2 patternAndLengthConstraints [] "ABCDE" "P" 3
    rfl rfl (by decide) (by decide)

/-- C4: for every object descriptor and every input that validates
successfully, a field not supplied in the input — in particular every
unset optional field — is entirely absent from the validated document
(the exclude-unset dump that the serializer wraps): it never appears,
with a null value or otherwise. -/
theorem C4_unset_optional_absent (m : Matcher) (fields : Fields) (kvs outs : VObj)
    (f : String)
    (hok : validateDesc m (.object fields) [] (.obj kvs) = .ok (.obj outs))
    (habs : kvs.lookupV f = none) :
    outs.lookupV f = none := by
  rcases hv : validateFields m fields [] kvs with ⟨fst, snd⟩
  simp only [validateDesc] at hok
  rw [hv] at hok
  cases fst with
  | cons a l => simp at hok
  | nil =>
    simp at hok
    have := validateFields_out_absent fields m [] kvs f habs
    rw [hv] at this
    rw [← hok]
    exact this

/-- C4 witness: an object with one optional int field, validated on the
empty input: the field is absent from the validated document. -/
theorem C4_unset_optional_witness :
    (VObj.nil : VObj).lookupV "port" = none :=
  C4_unset_optional_absent matchNone
    (.cons "port" (.opt (.scalar .int)) (some .null) noConstraints .nil)
    .nil .nil "port" (by decide) (by decide)

/-- C5: compilation gates every keyword constraint by the declared type:
pattern and max_length are attached exactly when the declared type tag is
str, ge and le exactly when it is int or float; for a scalar field of a
non-model non-list declared type the compiled type is fully determined by
the type tag alone (so a declared pattern cannot influence it); and a
field whose attached pattern constraint is absent can never produce a
pattern violation at validation time. -/
theorem C5_constraint_type_gating (mn fn : String) (props : FieldSpec) (t' : Desc)
    (df : Option Value) (c : FieldConstraints)
    (hok : compileField mn fn props = .ok (t', df, c)) :
    ((props.type? ≠ some "str" → c.pattern = none ∧ c.max_length = none)
     ∧ (props.type? = some "str" →
        c.pattern = props.validation.pattern ∧ c.max_length = props.validation.max_length)
     ∧ ((props.type? ≠ some "int" ∧ props.type? ≠ some "float") →
        c.ge = none ∧ c.le = none)
     ∧ ((props.type? = some "int" ∨ props.type? = some "float") →
        c.ge = props.validation.ge ∧ c.le = props.validation.le))
    ∧ (∀ t : String, props.union = .none → props.validation.choices = none →
        props.type? = some t → t ≠ "model" → t ≠ "list[model]" → t ≠ "list[str]" →
        t' = fieldTypeHint props (.scalar (TYPE_MAPPING t)))
    ∧ (∀ (m : Matcher) (p : List PathItem) (v : Value), c.pattern = none →
        ¬ (⟨p, .pattern_mismatch⟩ : Violation) ∈ checkConstraints m c p v) := by
  cases hp : parse_type_definition mn fn props with
  | error e => simp [compileField, hp, Bind.bind, Except.bind] at hok
  | ok t'' =>
    simp only [compileField, hp, Bind.bind, Except.bind, Except.ok.injEq] at hok
    have hc : c = fieldArgs props := by
      have := congrArg (fun z => z.2.2) hok
      simpa using this.symm
    have ht' : t' = fieldTypeHint props t'' := by
      have := congrArg (fun z => z.1) hok
      simpa using this.symm
    refine ⟨⟨?_, ?_, ?_, ?_⟩, ?_, ?_⟩
    · intro hns
      subst hc
      simp [fieldArgs, hns]
    · intro hs
      subst hc
      simp [fieldArgs, hs]
    · rintro ⟨hni, hnf⟩
      subst hc
      simp [fieldArgs, hni, hnf]
    · intro hor
      subst hc
      rcases hor with h | h <;> simp [fieldArgs, h]
    · intro t hu hch hty hm hlm hls
      have := parse_scalar_shape mn fn props t hu hch hty hm hlm hls
      rw [hp] at this
      simp at this
      rw [ht', this]
    · intro m p v hcp
      subst hc
      exact no_pattern_no_restriction m (fieldArgs props) p v hcp

/-- An int-typed field spec that (incorrectly for its type) declares a
pattern alongside its numeric bounds. -/
def intFieldWithPattern : FieldSpec :=
  .mk .none (some "int") true none ⟨some "P", some 1, some 10, some 3, none⟩ .none

/-- C5 witness: the compiled int field ignores the declared pattern and
max_length, keeps its numeric bounds, has the scalar int type dictated
by the tag, and its absent pattern constraint can never produce a
pattern violation. -/
theorem C5_constraint_type_gating_witness :
    ((⟨none, some 1, some 10, none⟩ : FieldConstraints).pattern = none ∧
      (⟨none, some 1, some 10, none⟩ : FieldConstraints).max_length = none) ∧
    (Desc.scalar .int = fieldTypeHint intFieldWithPattern (.scalar (TYPE_MAPPING "int"))) ∧
    ¬ (⟨[], .pattern_mismatch⟩ : Violation) ∈
        checkConstraints matchAll ⟨none, some 1, some 10, none⟩ [] (.str "abc") := by
  have H := C5_constraint_type_gating "cfg" "f" intFieldWithPattern
    (.scalar .int) none ⟨none, some 1, some 10, none⟩ (by decide)
  exact ⟨H.1.1 (by decide), H.2.1 "int" rfl rfl rfl (by decide) (by decide) (by decide),
    H.2.2 matchAll [] (.str "abc") rfl⟩


/-- A model-typed field spec that omits its nested model.fields mapping
but declares a choices list. -/
def modelWithChoicesSpec : FieldSpec :=
  .mk .none (some "model") true none ⟨none, none, none, none, some (.cons (.int 1) .nil)⟩ .none

/-- C6, counterexample: the claim asserts that every raw schema in which
a model-typed field omits model.fields fails compilation; but choices
take precedence over the declared type (model_service.py line 39), so a
model-typed field with a choices list and no model.fields compiles
successfully to a choice descriptor. -/
theorem C6_counterexample :
    parse_type_definition "cfg" "f" modelWithChoicesSpec = .ok (.choice (.cons (.int 1) .nil)) :=
  by decide

/-- C6 (amended): compilation fails with SchemaError exactly on the
missing nested mapping: a field of declared type model or list[model]
with no union, no choices and no model.fields mapping fails with
missingModelFields; and compilation of every structurally well-formed
raw schema tree never fails. -/
theorem C6_schema_error_amended :
    (∀ (mn fn : String) (props : FieldSpec),
      props.union = .none → props.validation.choices = none →
      (props.type? = some "model" ∨ props.type? = some "list[model]") →
      props.model = .none →
      parse_type_definition mn fn props = .error (.missingModelFields mn fn))
    ∧ (∀ (mn : String) (sf : SpecFields), wellFormedFields sf = true →
        ∃ d, create_model_from_schema mn sf = .ok d) := by
  constructor
  · intro mn fn props hu hch hty hmo
    rcases props with ⟨u, ty, r, df, ⟨pb, pge, ple, pml, pch⟩, mo⟩
    simp only [FieldSpec.union] at hu
    simp only [FieldSpec.validation] at hch
    simp only [FieldSpec.type?] at hty
    simp only [FieldSpec.model] at hmo
    subst hu
    subst hch
    subst hmo
    rcases hty with hty | hty <;> subst hty <;>
      cases pb <;> simp [parse_type_definition, Option.getD]
  · intro mn sf hwf
    rcases wf_compileFields_ok sf mn hwf with ⟨fs, hfs⟩
    exact ⟨.object fs, by simp [create_model_from_schema, hfs, Bind.bind, Except.bind]⟩

/-- A model-typed field spec omitting the nested mapping altogether. -/
def modelNoFieldsSpec : FieldSpec :=
  .mk .none (some "model") true none noValidation .none

/-- C6 witness: the model-typed field with no nested mapping fails with
missingModelFields, while the well-formed one-field int schema compiles. -/
theorem C6_schema_error_witness :
    parse_type_definition "cfg" "f" modelNoFieldsSpec =
      .error (.missingModelFields "cfg" "f") ∧
    ∃ d, create_model_from_schema "cfg" requiredNoDefaultSchema = .ok d :=
  ⟨C6_schema_error_amended.1 "cfg" "f" modelNoFieldsSpec rfl rfl (Or.inl rfl) rfl,
   C6_schema_error_amended.2 "cfg" requiredNoDefaultSchema (by decide)⟩

/-- C7: a list[str] field with a declared pattern compiles to the
pattern-constrained string list with minimum length one, accepting
exactly the nonempty sequences of strings each matching the pattern;
without a pattern it compiles to the unconstrained string list with no
minimum length, accepting exactly the (possibly empty) sequences of
strings. -/
theorem C7_list_str_field (mn fn : String) (props : FieldSpec)
    (hu : props.union = .none) (hch : props.validation.choices = none)
    (hty : props.type? = some "list[str]") :
    ((∀ pat, props.validation.pattern = some pat →
        parse_type_definition mn fn props = .ok (.listOfString (some pat) 1))
     ∧ (props.validation.pattern = none →
        parse_type_definition mn fn props = .ok (.listOfString none 0)))
    ∧ (∀ (m : Matcher) (pat : String) (p : List PathItem) (v w : Value),
        validateDesc m (.listOfString (some pat) 1) p v = .ok w ↔
          (w = v ∧ ∃ xs, v = .list xs ∧ 1 ≤ xs.lengthV ∧
            ∀ x ∈ xs.toList, ∃ s, x = .str s ∧ m pat s = true))
    ∧ (∀ (m : Matcher) (p : List PathItem) (v w : Value),
        validateDesc m (.listOfString none 0) p v = .ok w ↔
          (w = v ∧ ∃ xs, v = .list xs ∧ ∀ x ∈ xs.toList, ∃ s, x = .str s)) := by
  refine ⟨⟨?_, ?_⟩, ?_, ?_⟩
  · intro pat hpat
    rcases props with ⟨u, ty, r, df, ⟨pb, pge, ple, pml, pch⟩, mo⟩
    simp only [FieldSpec.union] at hu
    simp only [FieldSpec.validation] at hch hpat
    simp only [FieldSpec.type?] at hty
    subst hu; subst hch; subst hty; subst hpat
    cases mo <;> simp [parse_type_definition, Option.getD]
  · intro hpat
    rcases props with ⟨u, ty, r, df, ⟨pb, pge, ple, pml, pch⟩, mo⟩
    simp only [FieldSpec.union] at hu
    simp only [FieldSpec.validation] at hch hpat
    simp only [FieldSpec.type?] at hty
    subst hu; subst hch; subst hty; subst hpat
    cases mo <;> simp [parse_type_definition, Option.getD]
  · intro m pat p v w
    rw [listOfString_ok_iff]
    constructor
    · rintro ⟨hw, xs, hv, hlen, hall⟩
      refine ⟨hw, xs, hv, hlen, fun x hx => ?_⟩
      rcases hall x hx with ⟨s, hs, hmt⟩
      exact ⟨s, hs, hmt pat rfl⟩
    · rintro ⟨hw, xs, hv, hlen, hall⟩
      refine ⟨hw, xs, hv, hlen, fun x hx => ?_⟩
      rcases hall x hx with ⟨s, hs, hmt⟩
      refine ⟨s, hs, fun patt hpe => ?_⟩
      cases hpe
      exact hmt
  · intro m p v w
    rw [listOfString_ok_iff]
    constructor
    · rintro ⟨hw, xs, hv, _, hall⟩
      refine ⟨hw, xs, hv, fun x hx => ?_⟩
      rcases hall x hx with ⟨s, hs, _⟩
      exact ⟨s, hs⟩
    · rintro ⟨hw, xs, hv, hall⟩
      refine ⟨hw, xs, hv, by omega, fun x hx => ?_⟩
      rcases hall x hx with ⟨s, hs⟩
      exact ⟨s, hs, fun patt hpe => by cases hpe⟩

/-- A list[str] field spec declaring a pattern. -/
def listStrPatternSpec : FieldSpec :=
  .mk .none (some "list[str]") true none ⟨some "P", none, none, none, none⟩ .none

/-- C7 witness: the pattern-constrained string list compiled from the
spec accepts a one-element string list under a matcher accepting its
pattern. -/
theorem C7_list_str_witness :
    validateDesc matchAll (.listOfString (some "P") 1) [] (.list (.cons (.str "a") .nil)) =
      .ok (.list (.cons (.str "a") .nil)) :=
  ((C7_list_str_field "cfg" "f" listStrPatternSpec rfl rfl rfl).2.1 matchAll "P" []
      (.list (.cons (.str "a") .nil)) (.list (.cons (.str "a") .nil))).mpr
    ⟨rfl, .cons (.str "a") .nil, rfl, by decide, by
      intro x hx
      simp [VList.toList] at hx
      subst hx
      exact ⟨"a", rfl, rfl⟩⟩

/-- The schema of the idempotence counterexample: one required field
whose value is a union of two nested one-int-field models. -/
def unionTwoModelsSchema : SpecFields :=
  .cons "f" (.mk (.some (.cons
      (.mk .none (some "model") false none noValidation
        (.some (.cons "k" (.mk .none (some "int") false none noValidation .none) .nil)))
      (.cons
        (.mk .none (some "model") false none noValidation
          (.some (.cons "j" (.mk .none (some "int") false none noValidation .none) .nil)))
        .nil)))
    none true none noValidation .none) .nil

/-- The descriptor compiled from unionTwoModelsSchema. -/
def dUnionTwoModels : Desc :=
  .object (.cons "f" (.union (.cons
      (.object (.cons "k" (.opt (.scalar .int)) (some .null) noConstraints .nil))
      (.cons (.object (.cons "j" (.opt (.scalar .int)) (some .null) noConstraints .nil))
        .nil)))
    none noConstraints .nil)

/-- The input of the idempotence counterexample: the first union
alternative rejects it (k is five halves, not an int), the second
accepts it and drops the undeclared key k. -/
def unionCexInput : Value :=
  .obj (.cons "f" (.obj (.cons "k" (.float (mkRat 5 2)) (.cons "j" (.int 1) .nil))) .nil)

/-- The document produced by the first validation pass. -/
def unionCexFirst : Value := .obj (.cons "f" (.obj (.cons "j" (.int 1) .nil)) .nil)

/-- The document produced by re-validating the first pass's output: the
first union alternative now accepts (k is absent and optional, j is
ignored as undeclared) and produces the empty object instead. -/
def unionCexSecond : Value := .obj (.cons "f" (.obj .nil) .nil)

/-- C8, counterexample: validation is not idempotent in the presence of
unions: re-validating the validated document can switch the winning
union alternative and produce a different document, because validation
drops undeclared keys. -/
theorem C8_counterexample :
    create_model_from_schema "cfg" unionTwoModelsSchema = .ok dUnionTwoModels ∧
    validateDesc matchNone dUnionTwoModels [] unionCexInput = .ok unionCexFirst ∧
    validateDesc matchNone dUnionTwoModels [] unionCexFirst = .ok unionCexSecond ∧
    unionCexSecond ≠ unionCexFirst :=
  ⟨by decide, by decide, by decide, by decide⟩

/-- C8 (amended): validation is idempotent for every union-free
descriptor whose object nodes declare pairwise distinct field names (as
every descriptor compiled from actual dict-based schemas does): if
validating x succeeds with document w, re-validating w succeeds and
returns w unchanged. -/
theorem C8_idempotent_amended (m : Matcher) (d : Desc) (p : List PathItem) (x w : Value)
    (hu : unionFree d = true) (hdict : dictDesc d = true)
    (hok : validateDesc m d p x = .ok w) :
    validateDesc m d p w = .ok w :=
  validate_idem d m p x w hu hdict hok

/-- A union-free object descriptor with one required int field. -/
def dIntObject : Desc := .object (.cons "r" (.scalar .int) none noConstraints .nil)

/-- C8 witness: the float input five is coerced to the int five; the
re-validated document is returned unchanged. -/
theorem C8_idempotent_witness :
    validateDesc matchNone dIntObject [] (.obj (.cons "r" (.int 5) .nil)) =
      .ok (.obj (.cons "r" (.int 5) .nil)) :=
  C8_idempotent_amended matchNone dIntObject []
    (.obj (.cons "r" (.float 5) .nil)) (.obj (.cons "r" (.int 5) .nil))
    (by decide) (by decide) (by decide)

theorem lookup_mem {α : Type} :
    ∀ (store : List (String × α)) (k : String) (v : α),
      store.lookup k = some v → (k, v) ∈ store
  | [], k, v => by simp [List.lookup]
  | (k', v') :: tl, k, v => by
    intro h
    by_cases hk : k = k'
    · subst hk
      simp [List.lookup] at h
      simp [h]
    · have hbeq : (k == k') = false := by simpa using hk
      simp only [List.lookup, hbeq] at h
      simp [lookup_mem tl k v h]

/-- C9: the loader returns the stored document exactly as parsed when
one is stored under the requested name, fails with SchemaNotFoundError
naming the model when none is, and every document it returns comes from
the store; it is parametric in the document type, so it cannot inspect,
validate or alter the document's internal structure. -/
theorem C9_loader {α : Type} (store : List (String × α)) (model_name : String) :
    (∀ doc : α, store.lookup model_name = some doc →
      get_schema_by_name store model_name = .ok doc)
    ∧ (store.lookup model_name = none →
      get_schema_by_name store model_name = .error (.mk model_name))
    ∧ (∀ doc : α, get_schema_by_name store model_name = .ok doc →
      (model_name, doc) ∈ store) := by
  refine ⟨fun doc h => ?_, fun h => ?_, fun doc h => ?_⟩
  · simp [get_schema_by_name, h]
  · simp [get_schema_by_name, h]
  · cases hl : store.lookup model_name with
    | none => simp [get_schema_by_name, hl] at h
    | some doc' =>
      simp [get_schema_by_name, hl] at h
      subst h
      exact lookup_mem store model_name _ hl

/-- C9 witness: a two-document store of bare naturals (a document type
the loader cannot possibly validate): the stored document is returned
as-is, and a missing name fails with the not-found error. -/
theorem C9_loader_witness :
    get_schema_by_name [("a", 3), ("b", 7)] "a" = .ok 3 ∧
    get_schema_by_name ([("a", 3), ("b", 7)] : List (String × Nat)) "c" =
      .error (.mk "c") :=
  ⟨(C9_loader [("a", 3), ("b", 7)] "a").1 3 (by decide),
   (C9_loader [("a", 3), ("b", 7)] "c").2.1 (by decide)⟩

/-- C10: an optional field accepts an explicitly supplied null (the
compiled Optional type validates null to null, with the keyword
constraints skipped), and when the whole object validates, an optional
field supplied as null appears in the validated document with a null
value — in contrast to an unset optional field, which claim C4 shows is
omitted entirely. -/
theorem C10_explicit_null :
    (∀ (mn fn : String) (props : FieldSpec) (t' : Desc) (df : Option Value)
      (c : FieldConstraints) (m : Matcher) (p : List PathItem),
      compileField mn fn props = .ok (t', df, c) → props.required = false →
      validateEntry m t' c p .null = .ok .null)
    ∧ (∀ (m : Matcher) (fields : Fields) (p : List PathItem) (kvs outs : VObj) (f : String),
      validateDesc m (.object fields) p (.obj kvs) = .ok (.obj outs) →
      f ∈ fields.names → kvs.lookupV f = some .null →
      outs.lookupV f = some .null) := by
  constructor
  · intro mn fn props t' df c m p hok hreq
    cases hp : parse_type_definition mn fn props with
    | error e => simp [compileField, hp, Bind.bind, Except.bind] at hok
    | ok t'' =>
      simp only [compileField, hp, Bind.bind, Except.bind, Except.ok.injEq] at hok
      have ht' : t' = fieldTypeHint props t'' := by
        have := congrArg (fun z => z.1) hok
        simpa using this.symm
      rw [ht']
      simp [fieldTypeHint, hreq, validateEntry, validateDesc, Value.isNull, entryCheck]
  · intro m fields p kvs outs f hok hf hnull
    rcases hv : validateFields m fields p kvs with ⟨fst, snd⟩
    simp only [validateDesc] at hok
    rw [hv] at hok
    cases fst with
    | cons a l => simp at hok
    | nil =>
      simp at hok
      have := null_in_out fields m p kvs snd f (by rw [hv]) hf hnull
      rw [← hok]
      exact this

/-- C10 witness: the optional int field supplied as null validates, and
the null appears in the validated document. -/
theorem C10_explicit_null_witness :
    validateEntry matchNone (.opt (.scalar .int)) noConstraints [] .null = .ok .null ∧
    (VObj.cons "port" .null .nil).lookupV "port" = some .null :=
  ⟨C10_explicit_null.1 "cfg" "port"
      (.mk .none (some "int") false none noValidation .none)
      (.opt (.scalar .int)) (some .null) noConstraints matchNone [] (by decide) (by decide),
   C10_explicit_null.2 matchNone
      (.cons "port" (.opt (.scalar .int)) (some .null) noConstraints .nil) []
      (.cons "port" .null .nil) (.cons "port" .null .nil) "port"
      (by decide) (by decide) (by decide)⟩

end DynConfig
